import Mathlib

/-!
Verification of the maze engine in `maze_curses_player.py` (class `Maze`,
`bfs_shortest_path`, `BOX_MAP`, `wall_box_char`, `build_visual_grid`).

Embedding conventions:
* Python integers are `ℤ`; coordinates `(x, y)` are `Pos := ℤ × ℤ`.
* The dictionary `self.cells` mapping a cell to its set of open directions is a
  total function `Pos → Finset Dir` (cells never touched stay at the initial
  empty set; the Python dictionary only holds in-range keys and is only read
  at in-range keys).
* The mutable 2-D character arrays (`grid`, `visual`) are total functions
  `Pos → Char` together with the explicit `rows`/`cols` sizes; destructive
  writes become `Function.update`.  Out-of-range reads never happen in the
  executed Python code paths that are modelled.
* `random.choice(neighbors)` is modelled by an arbitrary oracle
  `rng : ℕ → ℕ`; the draw with index `k` selects entry `rng k % length`.
  Quantifying over all `rng` covers every possible seed / RNG behaviour.
* The two `while` loops (generator and BFS) are modelled with explicit fuel;
  a sufficiency lemma shows the fuel chosen in the top-level definitions is
  enough for the loop to reach its exit condition, so the embedded functions
  agree with the Python loops.
-/

abbrev Pos := ℤ × ℤ

/-- The four directions, in the insertion order of the Python `DIRS` dict. -/
inductive Dir
  | N
  | S
  | W
  | E
deriving DecidableEq, Fintype

/-- Iteration order of `DIRS.items()` (Python dict preserves insertion order). -/
def DIRS : List Dir := [Dir.N, Dir.S, Dir.W, Dir.E]

/-- The `(dx, dy)` vector stored in the Python `DIRS` dict. -/
def dvec : Dir → ℤ × ℤ
  | Dir.N => (0, -1)
  | Dir.S => (0, 1)
  | Dir.W => (-1, 0)
  | Dir.E => (1, 0)

/-- `OPPOSITE` dict of the source. -/
def OPPOSITE : Dir → Dir
  | Dir.N => Dir.S
  | Dir.S => Dir.N
  | Dir.W => Dir.E
  | Dir.E => Dir.W

/-- `(x + dx, y + dy)`: the neighbor of `p` in direction `d`. -/
def dstep (d : Dir) (p : Pos) : Pos := (p.1 + (dvec d).1, p.2 + (dvec d).2)

/-- The bounds test `0 <= nx < cell_cols and 0 <= ny < cell_rows`. -/
def inBoundsCell (cols rows : ℕ) (p : Pos) : Prop :=
  0 ≤ p.1 ∧ p.1 < (cols : ℤ) ∧ 0 ≤ p.2 ∧ p.2 < (rows : ℤ)

instance (cols rows : ℕ) (p : Pos) : Decidable (inBoundsCell cols rows p) :=
  inferInstanceAs (Decidable (0 ≤ p.1 ∧ p.1 < (cols : ℤ) ∧ 0 ≤ p.2 ∧ p.2 < (rows : ℤ)))

/-- The `neighbors` list built in `Maze._generate`: for each direction in
`DIRS` order, the in-bounds unvisited neighbors of `p`. -/
def unvisitedNeighbors (cols rows : ℕ) (visited : Finset Pos) (p : Pos) :
    List (Dir × Pos) :=
  DIRS.filterMap fun d =>
    let n := dstep d p
    if inBoundsCell cols rows n ∧ n ∉ visited then some (d, n) else none

/-- State of the `while stack:` loop in `Maze._generate`: the `cells` dict,
the `visited` set, the explicit `stack` (head of the list is the Python
`stack[-1]`), and the count `k` of random draws consumed so far. -/
structure GenState where
  cells : Pos → Finset Dir
  visited : Finset Pos
  stack : List Pos
  k : ℕ

/-- State just before the loop: `visited = {start}`, `stack = [start]` with
`start = (0, 0)`, every cell mapped to the empty direction set. -/
def initGenState : GenState :=
  { cells := fun _ => ∅, visited := {(0, 0)}, stack := [(0, 0)], k := 0 }

/-- The two dictionary updates
`self.cells[(x, y)].add(d); self.cells[(nx, ny)].add(OPPOSITE[d])`. -/
def carve (cells : Pos → Finset Dir) (p : Pos) (d : Dir) (n : Pos) :
    Pos → Finset Dir :=
  Function.update (Function.update cells p (insert d (cells p))) n
    (insert (OPPOSITE d) (cells n))

/-- One iteration of the generator loop body. -/
def genStep (cols rows : ℕ) (rng : ℕ → ℕ) (s : GenState) : GenState :=
  match s.stack with
  | [] => s
  | p :: rest =>
    match unvisitedNeighbors cols rows s.visited p with
    | [] => { s with stack := rest }
    | q :: qs =>
      let c := (q :: qs).get ⟨rng s.k % (q :: qs).length, Nat.mod_lt _ (Nat.succ_pos _)⟩
      { cells := carve s.cells p c.1 c.2
        visited := insert c.2 s.visited
        stack := c.2 :: p :: rest
        k := s.k + 1 }

/-- The `while stack:` loop, with fuel. -/
def genLoop (cols rows : ℕ) (rng : ℕ → ℕ) : ℕ → GenState → GenState
  | 0, s => s
  | fuel + 1, s =>
    match s.stack with
    | [] => s
    | _ :: _ => genLoop cols rows rng fuel (genStep cols rows rng s)

/-- Fuel that suffices for the generator loop to drain its stack. -/
def genFuel (cols rows : ℕ) : ℕ := 2 * (cols * rows)

/-- `Maze._generate`: the final `cells` dictionary of
`Maze(cell_cols, cell_rows)` when the random draws come from `rng`. -/
def mazeCells (cols rows : ℕ) (rng : ℕ → ℕ) : Pos → Finset Dir :=
  (genLoop cols rows rng (genFuel cols rows) initGenState).cells

/-- Model of `random.seed`: a seeded run replaces the ambient random stream by
a stream that depends only on the seed (`seedFn s`); with `seed = None` the
ambient stream is used unchanged. -/
def seededRng (seedFn : ℤ → ℕ → ℕ) (ambient : ℕ → ℕ) : Option ℤ → ℕ → ℕ
  | none => ambient
  | some s => seedFn s

/-- `Maze.__init__` followed by `_generate`: seeds the RNG if a seed is given,
then generates. -/
def Maze.make (cols rows : ℕ) (seedFn : ℤ → ℕ → ℕ) (ambient : ℕ → ℕ)
    (seed : Option ℤ) : Pos → Finset Dir :=
  mazeCells cols rows (seededRng seedFn ambient seed)

/-! ## The character grid -/

/-- A Python list-of-lists character grid `grid`, as sizes plus a cell map;
`cell (x, y)` is `grid[y][x]`. -/
structure Grid where
  rows : ℕ
  cols : ℕ
  cell : Pos → Char

/-- Bounds test `0 <= x < cols and 0 <= y < rows` against grid sizes. -/
def inGrid (g : Grid) (p : Pos) : Prop :=
  0 ≤ p.1 ∧ p.1 < (g.cols : ℤ) ∧ 0 ≤ p.2 ∧ p.2 < (g.rows : ℤ)

instance (g : Grid) (p : Pos) : Decidable (inGrid g p) :=
  inferInstanceAs (Decidable (0 ≤ p.1 ∧ p.1 < (g.cols : ℤ) ∧ 0 ≤ p.2 ∧ p.2 < (g.rows : ℤ)))

/-- Body of the double loop in `Maze.to_grid`: carve the passage cell
`grid[gy][gx] = " "` and, when open, the east / south wall slots. -/
def carveCellGrid (cells : Pos → Finset Dir) (g : Pos → Char) (x y : ℕ) :
    Pos → Char :=
  let gx : ℤ := 2 * (x : ℤ) + 1
  let gy : ℤ := 2 * (y : ℤ) + 1
  let g1 := Function.update g (gx, gy) ' '
  let g2 := if Dir.E ∈ cells ((x : ℤ), (y : ℤ)) then
    Function.update g1 (gx + 1, gy) ' ' else g1
  if Dir.S ∈ cells ((x : ℤ), (y : ℤ)) then
    Function.update g2 (gx, gy + 1) ' ' else g2

/-- The double loop of `Maze.to_grid` over all cells, starting from the
all-wall array of `"█"`. -/
def toGridFun (cells : Pos → Finset Dir) (cols rows : ℕ) : Pos → Char :=
  (List.range rows).foldl
    (fun g y => (List.range cols).foldl (fun g x => carveCellGrid cells g x y) g)
    (fun _ => '█')

/-- `Maze.to_grid`: grid of size `(2*cell_rows+1) × (2*cell_cols+1)`. -/
def Maze.to_grid (cols rows : ℕ) (cells : Pos → Finset Dir) : Grid :=
  { rows := 2 * rows + 1, cols := 2 * cols + 1, cell := toGridFun cells cols rows }

/-- `Maze.start_end_positions`: grid coordinates of cell `(0,0)` and of cell
`(cell_cols - 1, cell_rows - 1)`. -/
def start_end_positions (cols rows : ℕ) : Pos × Pos :=
  ((0 * 2 + 1, 0 * 2 + 1),
   (((cols : ℤ) - 1) * 2 + 1, ((rows : ℤ) - 1) * 2 + 1))

/-! ## Box-drawing glyphs -/

/-- The literal `BOX_MAP` dict (bits: N=1, E=2, S=4, W=8); `none` models a
missing key. -/
def BOX_MAP : ℕ → Option Char
  | 0 => some '█'
  | 1 => some '│'
  | 2 => some '─'
  | 3 => some '└'
  | 4 => some '│'
  | 5 => some '│'
  | 6 => some '┌'
  | 7 => some '├'
  | 8 => some '─'
  | 9 => some '┘'
  | 10 => some '─'
  | 11 => some '┴'
  | 12 => some '┐'
  | 13 => some '┤'
  | 14 => some '┬'
  | 15 => some '┼'
  | _ => none

/-- The inner `is_wall` of `wall_box_char`: out-of-bounds counts as NOT a
wall (`return False`), otherwise `grid[ny][nx] != " "`. -/
def is_wall (g : Grid) (x y : ℤ) : Bool :=
  if inGrid g (x, y) then g.cell (x, y) != ' ' else false

/-- The `bits` accumulated in `wall_box_char`. -/
def wallBits (g : Grid) (x y : ℤ) : ℕ :=
  (if is_wall g x (y - 1) then 1 else 0) |||
  (if is_wall g (x + 1) y then 2 else 0) |||
  (if is_wall g x (y + 1) then 4 else 0) |||
  (if is_wall g (x - 1) y then 8 else 0)

/-- `wall_box_char`: `BOX_MAP.get(bits, "█")`. -/
def wall_box_char (g : Grid) (x y : ℤ) : Char :=
  (BOX_MAP (wallBits g x y)).getD '█'

/-- Lookup into `BOX_MAP` with the `"█"` default, the pure
bitmask-to-glyph map of the spec. -/
def glyph_for_bitmask (mask : ℕ) : Char := (BOX_MAP mask).getD '█'

/-! ## Visual grid (renderer) -/

def PLAYER_GLYPH : Char := '0'

def PATH_GLYPH : Char := '·'

/-- Base layer of `build_visual_grid`: passages as spaces, wall cells via
`wall_box_char`; cells outside the grid keep the initial `" "` fill. -/
def visualBase (g : Grid) (p : Pos) : Char :=
  if inGrid g p then
    (if g.cell p = ' ' then ' ' else wall_box_char g p.1 p.2)
  else ' '

/-- Path overlay: every member of `pathset` other than `start`, `end` and the
player gets `PATH_GLYPH`.  (The Python loop writes one fixed glyph, so the
set iteration order does not matter.) -/
def visualPath (g : Grid) (start e : Pos) (pathset : Finset Pos)
    (player : Option Pos) (p : Pos) : Char :=
  if p ∈ pathset ∧ ¬(p = start ∨ p = e ∨ player = some p) then PATH_GLYPH
  else visualBase g p

/-- Player overlay (`if player:` is false exactly for `None`, since a
coordinate pair is always truthy). -/
def visualPlayer (g : Grid) (start e : Pos) (pathset : Finset Pos)
    (player : Option Pos) (p : Pos) : Char :=
  if player = some p then PLAYER_GLYPH
  else visualPath g start e pathset player p

/-- `build_visual_grid`: final layer writes `"S"` then `"E"` (so at a shared
coordinate the later `"E"` write wins). -/
def build_visual_grid (g : Grid) (start e : Pos) (pathset : Finset Pos)
    (player : Option Pos) (p : Pos) : Char :=
  if p = e then 'E'
  else if p = start then 'S'
  else visualPlayer g start e pathset player p

/-! ## BFS solver -/

/-- Neighbor offsets explored by `bfs_shortest_path`, in source order. -/
def NBR_STEPS : List (ℤ × ℤ) := [(1, 0), (-1, 0), (0, 1), (0, -1)]

/-- State of the BFS loop: the deque `q` (head is the next `popleft`) and the
`prev` dict; `prev p = none` means `p` is undiscovered, `some none` is the
`None` entry of the start, `some (some u)` records predecessor `u`. -/
structure BfsState where
  q : List Pos
  prev : Pos → Option (Option Pos)

/-- One step of the `for dx, dy in [...]` body run on dequeued cell `c`:
enqueue the neighbor `(x + dx, y + dy)` when it is in bounds, a passage (or
the goal), and not yet in `prev`. -/
def enqStep (g : Grid) (goal c : Pos) (st : BfsState) (dp : ℤ × ℤ) : BfsState :=
  let n : Pos := (c.1 + dp.1, c.2 + dp.2)
  if inGrid g n ∧ (g.cell n = ' ' ∨ n = goal) ∧ st.prev n = none then
    { q := st.q ++ [n], prev := Function.update st.prev n (some (some c)) }
  else st

/-- The whole `for dx, dy in [...]` loop run on dequeued cell `c`. -/
def bfsVisit (g : Grid) (goal : Pos) (c : Pos) (st : BfsState) : BfsState :=
  NBR_STEPS.foldl (enqStep g goal c) st

/-- The `while q:` loop with fuel; stops on an empty queue, or dequeues and
breaks when the dequeued cell is the goal. -/
def bfsLoop (g : Grid) (goal : Pos) : ℕ → BfsState → BfsState
  | 0, st => st
  | fuel + 1, st =>
    match st.q with
    | [] => st
    | c :: rest =>
      if c = goal then st
      else bfsLoop g goal fuel (bfsVisit g goal c { q := rest, prev := st.prev })

/-- The reconstruction loop `while cur is not None`, with fuel: collects
`goal, ..., start` following `prev`.  A `some none` entry (the start) ends
the walk; fuel runs out only below the chain length. -/
def walkPrev (prev : Pos → Option (Option Pos)) : ℕ → Pos → List Pos
  | 0, _ => []
  | fuel + 1, c =>
    match prev c with
    | some (some p) => c :: walkPrev prev fuel p
    | _ => [c]

/-- Initial BFS state: `q = deque([start])`, `prev = {start: None}`. -/
def bfsInit (start : Pos) : BfsState :=
  { q := [start], prev := Function.update (fun _ => none) start (some none) }

/-- Fuel that suffices for the BFS loop to exhaust its queue. -/
def bfsFuel (g : Grid) : ℕ := g.rows * g.cols + 1

/-- `bfs_shortest_path`: BFS from `start`, empty list when the goal was never
discovered, otherwise the reversed predecessor chain of the goal. -/
def bfs_shortest_path (g : Grid) (start goal : Pos) : List Pos :=
  let st := bfsLoop g goal (bfsFuel g) (bfsInit start)
  if st.prev goal = none then []
  else (walkPrev st.prev (g.rows * g.cols + 2) goal).reverse

/-! ## Specification-side notions -/

/-- One 4-directional step (the offsets are exactly `NBR_STEPS`). -/
def adj4 (p q : Pos) : Prop := ∃ dp ∈ NBR_STEPS, q = (p.1 + dp.1, p.2 + dp.2)

instance (p q : Pos) : Decidable (adj4 p q) :=
  inferInstanceAs (Decidable (∃ dp ∈ NBR_STEPS, q = (p.1 + dp.1, p.2 + dp.2)))

/-- A passage path of the claims: a nonempty sequence from `start` to `goal`,
each consecutive pair 4-adjacent, every member an in-bounds passage cell. -/
def PassagePath (g : Grid) (start goal : Pos) (l : List Pos) : Prop :=
  l.head? = some start ∧ l.getLast? = some goal ∧ List.Chain' adj4 l ∧
    ∀ p ∈ l, inGrid g p ∧ g.cell p = ' '

instance (g : Grid) (start goal : Pos) (l : List Pos) :
    Decidable (PassagePath g start goal l) :=
  inferInstanceAs (Decidable (l.head? = some start ∧ l.getLast? = some goal ∧
    List.Chain' adj4 l ∧ ∀ p ∈ l, inGrid g p ∧ g.cell p = ' '))

/-- The claim version of the neighbor test of C1: out-of-bounds counts as a
wall.  Modelled from the spec sentence, to be compared with `is_wall`. -/
def claimIsWall (g : Grid) (x y : ℤ) : Bool :=
  if inGrid g (x, y) then g.cell (x, y) != ' ' else true

/-- The wall bitmask as claim C1 states it (out-of-bounds neighbors are
walls), with bit N=1, E=2, S=4, W=8. -/
def claimBits (g : Grid) (x y : ℤ) : ℕ :=
  (if claimIsWall g x (y - 1) then 1 else 0) |||
  (if claimIsWall g (x + 1) y then 2 else 0) |||
  (if claimIsWall g x (y + 1) then 4 else 0) |||
  (if claimIsWall g (x - 1) y then 8 else 0)

/-- The expected glyph table of claim C9, indices 0 to 15. -/
def BOX_GLYPHS : List Char :=
  ['█', '│', '─', '└', '│', '│', '┌', '├', '─', '┘', '─', '┴', '┐', '┤', '┬', '┼']

/-! ## Example grids used as concrete inputs -/

/-- A 1×1 grid consisting of a single wall cell. -/
def gOne : Grid := { rows := 1, cols := 1, cell := fun _ => '█' }

/-- A 1-row, 2-column grid whose cells are both walls. -/
def gAllWall : Grid := { rows := 1, cols := 2, cell := fun _ => '█' }

/-- A 1-row, 2-column grid whose cells are both passages. -/
def gOpen : Grid := { rows := 1, cols := 2, cell := fun _ => ' ' }

/-- A 1-row, 3-column grid with a wall in the middle column. -/
def gSplit : Grid := { rows := 1, cols := 3, cell := fun p => if p.1 = 1 then '█' else ' ' }

/-! ## C1: wall bitmask -/

/-- C1, counterexample: at the single wall cell of `gOne` all four neighbors
are out of bounds; the code computes bitmask 0 (out-of-bounds is NOT treated
as a wall, `is_wall` returns false there), while the claim demands 15. -/
theorem c1_counterexample :
    gOne.cell (0, 0) ≠ ' ' ∧ wallBits gOne 0 0 = 0 ∧ claimBits gOne 0 0 = 15 ∧
      wallBits gOne 0 0 ≠ claimBits gOne 0 0 := by decide

/-- C1, amended: for every grid cell the wall bitmask sets bit 1 (bit index 0)
iff the north neighbor is an in-bounds wall, bit 2 for east, bit 4 for south
and bit 8 for west, treating out-of-bounds neighbors as NOT walls; the mask
is a 4-bit value. -/
theorem c1_wall_bitmask (g : Grid) (x y : ℤ) :
    wallBits g x y < 16 ∧
    (wallBits g x y).testBit 0 = is_wall g x (y - 1) ∧
    (wallBits g x y).testBit 1 = is_wall g (x + 1) y ∧
    (wallBits g x y).testBit 2 = is_wall g x (y + 1) ∧
    (wallBits g x y).testBit 3 = is_wall g (x - 1) y := by
  cases h1 : is_wall g x (y - 1) <;> cases h2 : is_wall g (x + 1) y <;>
    cases h3 : is_wall g x (y + 1) <;> cases h4 : is_wall g (x - 1) y <;>
      simp [wallBits, h1, h2, h3, h4] <;> decide

/-! ## C5: determinism under a fixed seed -/

/-- C5: with a present seed the generated maze does not depend on the ambient
random state at all: two generations with the same seed and dimensions yield
the identical open-direction mapping. -/
theorem c5_seed_determinism (cols rows : ℕ) (seedFn : ℤ → ℕ → ℕ)
    (ambient1 ambient2 : ℕ → ℕ) (s : ℤ) :
    Maze.make cols rows seedFn ambient1 (some s) =
      Maze.make cols rows seedFn ambient2 (some s) := rfl

/-! ## C7: start/end marker overlay -/

/-- C7, counterexample: when `start = end` the later `"E"` write wins, so the
rendered cell at the start coordinate is not the start marker. -/
theorem c7_counterexample :
    build_visual_grid gOne (0, 0) (0, 0) ∅ none (0, 0) = 'E' ∧
      build_visual_grid gOne (0, 0) (0, 0) ∅ none (0, 0) ≠ 'S' := by decide

/-- C7, amended: whenever `start ≠ end`, the rendered cell at `end` is the
end marker and the one at `start` is the start marker, for every grid, path
set and player (the markers overwrite path and player glyphs); when they
coincide the shared cell shows the end marker. -/
theorem c7_markers (g : Grid) (start e : Pos) (pathset : Finset Pos)
    (player : Option Pos) (hne : start ≠ e) :
    build_visual_grid g start e pathset player e = 'E' ∧
      build_visual_grid g start e pathset player start = 'S' := by
  refine ⟨?_, ?_⟩
  · simp [build_visual_grid]
  · simp [build_visual_grid, hne]

theorem c7_markers_witness :
    ((0, 0) : Pos) ≠ ((1, 0) : Pos) ∧
      (build_visual_grid gOne (0, 0) (1, 0) ∅ none (1, 0) = 'E' ∧
        build_visual_grid gOne (0, 0) (1, 0) ∅ none (0, 0) = 'S') :=
  ⟨by decide, c7_markers gOne (0, 0) (1, 0) ∅ none (by decide)⟩

/-! ## C9: glyph table -/

/-- C9: `BOX_MAP` is defined (is `some`) on every input in `[0, 15]` and its
entries equal the literal glyph table, with input 0 mapping to the solid
block; `glyph_for_bitmask` returns exactly the table entry there. -/
theorem c9_box_map_total :
    (∀ m : Fin 16, BOX_MAP m.val = BOX_GLYPHS[m.val]? ∧
      (BOX_MAP m.val).isSome = true ∧
      glyph_for_bitmask m.val = BOX_GLYPHS.getD m.val '█') ∧
    BOX_MAP 0 = some '█' := by decide

/-! ## Characterizing `Maze.to_grid` -/

/-- Positions written to `" "` by the loop body for cell `(x, y)`. -/
def carvedAt (cells : Pos → Finset Dir) (x y : ℕ) (p : Pos) : Prop :=
  p = (2 * (x : ℤ) + 1, 2 * (y : ℤ) + 1) ∨
  (Dir.E ∈ cells ((x : ℤ), (y : ℤ)) ∧ p = (2 * (x : ℤ) + 1 + 1, 2 * (y : ℤ) + 1)) ∨
  (Dir.S ∈ cells ((x : ℤ), (y : ℤ)) ∧ p = (2 * (x : ℤ) + 1, 2 * (y : ℤ) + 1 + 1))

instance (cells : Pos → Finset Dir) (x y : ℕ) (p : Pos) :
    Decidable (carvedAt cells x y p) :=
  inferInstanceAs (Decidable (p = (2 * (x : ℤ) + 1, 2 * (y : ℤ) + 1) ∨
    (Dir.E ∈ cells ((x : ℤ), (y : ℤ)) ∧ p = (2 * (x : ℤ) + 1 + 1, 2 * (y : ℤ) + 1)) ∨
    (Dir.S ∈ cells ((x : ℤ), (y : ℤ)) ∧ p = (2 * (x : ℤ) + 1, 2 * (y : ℤ) + 1 + 1))))

lemma carveCellGrid_eq (cells : Pos → Finset Dir) (g : Pos → Char) (x y : ℕ)
    (p : Pos) :
    carveCellGrid cells g x y p = if carvedAt cells x y p then ' ' else g p := by
  by_cases hE : Dir.E ∈ cells ((x : ℤ), (y : ℤ)) <;>
    by_cases hS : Dir.S ∈ cells ((x : ℤ), (y : ℤ)) <;>
      simp only [carveCellGrid, carvedAt, hE, hS, if_true, if_false,
        Function.update_apply, true_and, false_and, false_or, or_false] <;>
        split_ifs <;> simp_all

/-- Writing a fixed character at condition-selected positions, folded over a
list, hits exactly the union of the conditions. -/
lemma foldl_overlay {α : Type} (C : α → Pos → Prop) [∀ a p, Decidable (C a p)]
    (ch : Char) (f : (Pos → Char) → α → Pos → Char)
    (hf : ∀ g a p, f g a p = if C a p then ch else g p) :
    ∀ (l : List α) (g : Pos → Char) (p : Pos),
      l.foldl f g p = if ∃ a ∈ l, C a p then ch else g p := by
  intro l
  induction l with
  | nil => intro g p; simp
  | cons a l ih =>
    intro g p
    rw [List.foldl_cons, ih]
    by_cases hC : C a p
    · by_cases hE : ∃ b ∈ l, C b p <;> simp [hf, hC, hE]
    · by_cases hE : ∃ b ∈ l, C b p <;> simp [hf, hC, hE]

lemma toGridFun_eq (cells : Pos → Finset Dir) (cols rows : ℕ) (p : Pos) :
    toGridFun cells cols rows p =
      if ∃ y < rows, ∃ x < cols, carvedAt cells x y p then ' ' else '█' := by
  unfold toGridFun
  rw [foldl_overlay (fun y p => ∃ x < cols, carvedAt cells x y p) ' '
    (fun g y => (List.range cols).foldl (fun g x => carveCellGrid cells g x y) g)
    ?_ (List.range rows) (fun _ => '█') p]
  · simp
  · intro g y q
    show (List.range cols).foldl (fun g x => carveCellGrid cells g x y) g q = _
    rw [foldl_overlay (fun x q => carvedAt cells x y q) ' '
      (fun g x => carveCellGrid cells g x y) (fun g a q => carveCellGrid_eq cells g a y q)
      (List.range cols) g q]
    simp

/-! ## C10: even-even grid cells are always walls -/

/-- C10: in the display grid derived from any maze cell map, every grid cell
with both coordinates even is a wall: the carving writes only odd-odd cell
interiors and wall slots with exactly one odd coordinate. -/
theorem c10_even_even_wall (cols rows : ℕ) (cells : Pos → Finset Dir)
    (x y : ℤ) (hx : x % 2 = 0) (hy : y % 2 = 0) :
    (Maze.to_grid cols rows cells).cell (x, y) = '█' := by
  show toGridFun cells cols rows (x, y) = '█'
  rw [toGridFun_eq, if_neg]
  rintro ⟨b, _, a, _, h | ⟨_, h⟩ | ⟨_, h⟩⟩ <;>
    · rw [Prod.ext_iff] at h
      simp only at h
      omega

theorem c10_witness :
    ((0 : ℤ) % 2 = 0) ∧ ((2 : ℤ) % 2 = 0) ∧
      (Maze.to_grid 1 1 (fun _ => ∅)).cell (0, 2) = '█' :=
  ⟨by decide, by decide, c10_even_even_wall 1 1 (fun _ => ∅) 0 2 (by decide) (by decide)⟩

/-! ## BFS: basic notions -/

/-- A cell the BFS may enter: in bounds and a passage, or the goal itself
(the `or (nx, ny) == goal` disjunct of the source). -/
def Trav (g : Grid) (goal : Pos) (p : Pos) : Prop :=
  inGrid g p ∧ (g.cell p = ' ' ∨ p = goal)

instance (g : Grid) (goal p : Pos) : Decidable (Trav g goal p) :=
  inferInstanceAs (Decidable (inGrid g p ∧ (g.cell p = ' ' ∨ p = goal)))

/-- Paths the BFS can discover: start anywhere at the fixed `start`, each
further node reached by a 4-step into a traversable cell; the number counts
the steps. -/
inductive BPath (g : Grid) (start goal : Pos) : Pos → ℕ → Prop
  | base : BPath g start goal start 0
  | step {u v : Pos} {n : ℕ} : BPath g start goal u n → adj4 u v →
      Trav g goal v → BPath g start goal v (n + 1)

/-- All in-bounds positions of a grid. -/
def gridBox (g : Grid) : Finset Pos :=
  Finset.Ico (0 : ℤ) (g.cols : ℤ) ×ˢ Finset.Ico (0 : ℤ) (g.rows : ℤ)

lemma mem_gridBox {g : Grid} {p : Pos} : p ∈ gridBox g ↔ inGrid g p := by
  simp only [gridBox, Finset.mem_product, Finset.mem_Ico, inGrid]
  tauto

lemma card_gridBox (g : Grid) : (gridBox g).card = g.cols * g.rows := by
  simp [gridBox, Int.card_Ico]

/-- The four neighbor positions of `c`, in exploration order. -/
def nbrList (c : Pos) : List Pos :=
  NBR_STEPS.map fun dp => (c.1 + dp.1, c.2 + dp.2)

lemma adj4_iff_mem_nbrList {c q : Pos} : adj4 c q ↔ q ∈ nbrList c := by
  simp only [adj4, nbrList, List.mem_map]
  constructor
  · rintro ⟨dp, h1, h2⟩; exact ⟨dp, h1, h2.symm⟩
  · rintro ⟨dp, h1, h2⟩; exact ⟨dp, h1, h2.symm⟩

lemma nbrList_nodup (c : Pos) : (nbrList c).Nodup := by
  obtain ⟨a, b⟩ := c
  simp [nbrList, NBR_STEPS, Prod.ext_iff]

lemma adj4_symm {p q : Pos} (h : adj4 p q) : adj4 q p := by
  obtain ⟨dp, hmem, rfl⟩ := h
  simp only [NBR_STEPS, List.mem_cons, List.not_mem_nil, or_false] at hmem
  rcases hmem with rfl | rfl | rfl | rfl
  · exact ⟨(-1, 0), by simp [NBR_STEPS], by simp⟩
  · exact ⟨(1, 0), by simp [NBR_STEPS], by simp⟩
  · exact ⟨(0, -1), by simp [NBR_STEPS], by simp⟩
  · exact ⟨(0, 1), by simp [NBR_STEPS], by simp⟩

/-- The test deciding whether the BFS enqueues neighbor `n`. -/
def enqTest (g : Grid) (goal : Pos) (prev : Pos → Option (Option Pos))
    (n : Pos) : Prop :=
  inGrid g n ∧ (g.cell n = ' ' ∨ n = goal) ∧ prev n = none

instance (g : Grid) (goal : Pos) (prev : Pos → Option (Option Pos)) (n : Pos) :
    Decidable (enqTest g goal prev n) :=
  inferInstanceAs (Decidable (inGrid g n ∧ (g.cell n = ' ' ∨ n = goal) ∧ prev n = none))

/-- The neighbors of `c` that one run of the `for` body newly enqueues. -/
def newNbrs (g : Grid) (goal : Pos) (prev : Pos → Option (Option Pos))
    (c : Pos) : List Pos :=
  (nbrList c).filter fun n => decide (enqTest g goal prev n)

lemma mem_newNbrs {g : Grid} {goal : Pos} {prev : Pos → Option (Option Pos)}
    {c n : Pos} :
    n ∈ newNbrs g goal prev c ↔ n ∈ nbrList c ∧ enqTest g goal prev n := by
  simp [newNbrs, List.mem_filter]

lemma newNbrs_nodup (g : Grid) (goal : Pos) (prev : Pos → Option (Option Pos))
    (c : Pos) : (newNbrs g goal prev c).Nodup :=
  (nbrList_nodup c).filter _

lemma enqStep_pos (g : Grid) (goal c : Pos) (st : BfsState) (dp : ℤ × ℤ)
    (hT : enqTest g goal st.prev (c.1 + dp.1, c.2 + dp.2)) :
    enqStep g goal c st dp =
      { q := st.q ++ [((c.1 + dp.1, c.2 + dp.2) : Pos)],
        prev := Function.update st.prev (c.1 + dp.1, c.2 + dp.2) (some (some c)) } := by
  have hT' : inGrid g ((c.1 + dp.1, c.2 + dp.2) : Pos) ∧
      (g.cell (c.1 + dp.1, c.2 + dp.2) = ' ' ∨ ((c.1 + dp.1, c.2 + dp.2) : Pos) = goal) ∧
      st.prev (c.1 + dp.1, c.2 + dp.2) = none := hT
  simp only [enqStep]
  rw [if_pos hT']

lemma enqStep_neg (g : Grid) (goal c : Pos) (st : BfsState) (dp : ℤ × ℤ)
    (hT : ¬enqTest g goal st.prev (c.1 + dp.1, c.2 + dp.2)) :
    enqStep g goal c st dp = st := by
  have hT' : ¬(inGrid g ((c.1 + dp.1, c.2 + dp.2) : Pos) ∧
      (g.cell (c.1 + dp.1, c.2 + dp.2) = ' ' ∨ ((c.1 + dp.1, c.2 + dp.2) : Pos) = goal) ∧
      st.prev (c.1 + dp.1, c.2 + dp.2) = none) := hT
  simp only [enqStep]
  rw [if_neg hT']

lemma filter_enqTest_congr (g : Grid) (goal : Pos)
    {prev prev' : Pos → Option (Option Pos)} (l : List Pos)
    (h : ∀ p ∈ l, prev' p = prev p) :
    l.filter (fun n => decide (enqTest g goal prev' n)) =
      l.filter (fun n => decide (enqTest g goal prev n)) := by
  apply List.filter_congr
  intro p hp
  simp only [decide_eq_decide]
  unfold enqTest
  rw [h p hp]

lemma enqFold_prev (g : Grid) (goal c : Pos) :
    ∀ (l : List (ℤ × ℤ)) (st : BfsState),
      (l.map fun dp => ((c.1 + dp.1, c.2 + dp.2) : Pos)).Nodup → ∀ p,
      (l.foldl (enqStep g goal c) st).prev p =
        if p ∈ (l.map fun dp => ((c.1 + dp.1, c.2 + dp.2) : Pos)).filter
            (fun n => decide (enqTest g goal st.prev n)) then some (some c)
        else st.prev p := by
  intro l
  induction l with
  | nil => intro st _ p; simp
  | cons dp l ih =>
    intro st hnd p
    rw [List.map_cons, List.nodup_cons] at hnd
    obtain ⟨hhead, htail⟩ := hnd
    rw [List.foldl_cons]
    by_cases hT : enqTest g goal st.prev (c.1 + dp.1, c.2 + dp.2)
    · rw [enqStep_pos g goal c st dp hT, ih _ htail p]
      have hupd : ∀ r : Pos, r ≠ (c.1 + dp.1, c.2 + dp.2) →
          Function.update st.prev (c.1 + dp.1, c.2 + dp.2) (some (some c)) r = st.prev r :=
        fun r hr => Function.update_noteq hr _ _
      rw [filter_enqTest_congr g goal _
        (fun r hr => hupd r (fun hEq => hhead (hEq ▸ hr)))]
      have hTd : decide (enqTest g goal st.prev (c.1 + dp.1, c.2 + dp.2)) = true :=
        decide_eq_true hT
      simp only [List.map_cons, List.filter_cons, hTd, if_true, List.mem_cons]
      by_cases hp : p = (c.1 + dp.1, c.2 + dp.2)
      · subst hp
        have hnot : ((c.1 + dp.1, c.2 + dp.2) : Pos) ∉
            (l.map fun dq => ((c.1 + dq.1, c.2 + dq.2) : Pos)).filter
              (fun n => decide (enqTest g goal st.prev n)) := by
          intro hmem
          exact hhead (List.mem_of_mem_filter hmem)
        simp [hnot, Function.update_same]
      · simp only [hp, false_or]
        by_cases hmem : p ∈ (l.map fun dq => ((c.1 + dq.1, c.2 + dq.2) : Pos)).filter
            (fun n => decide (enqTest g goal st.prev n))
        · simp [hmem]
        · simp [hmem, hupd p hp]
    · rw [enqStep_neg g goal c st dp hT, ih _ htail p]
      have hTd : decide (enqTest g goal st.prev (c.1 + dp.1, c.2 + dp.2)) = false :=
        decide_eq_false hT
      simp only [List.map_cons, List.filter_cons, hTd, Bool.false_eq_true, if_false]

lemma enqFold_q (g : Grid) (goal c : Pos) :
    ∀ (l : List (ℤ × ℤ)) (st : BfsState),
      (l.map fun dp => ((c.1 + dp.1, c.2 + dp.2) : Pos)).Nodup →
      (l.foldl (enqStep g goal c) st).q =
        st.q ++ (l.map fun dp => ((c.1 + dp.1, c.2 + dp.2) : Pos)).filter
          (fun n => decide (enqTest g goal st.prev n)) := by
  intro l
  induction l with
  | nil => intro st _; simp
  | cons dp l ih =>
    intro st hnd
    rw [List.map_cons, List.nodup_cons] at hnd
    obtain ⟨hhead, htail⟩ := hnd
    rw [List.foldl_cons]
    by_cases hT : enqTest g goal st.prev (c.1 + dp.1, c.2 + dp.2)
    · rw [enqStep_pos g goal c st dp hT, ih _ htail]
      have hupd : ∀ r : Pos, r ≠ (c.1 + dp.1, c.2 + dp.2) →
          Function.update st.prev (c.1 + dp.1, c.2 + dp.2) (some (some c)) r = st.prev r :=
        fun r hr => Function.update_noteq hr _ _
      rw [filter_enqTest_congr g goal _
        (fun r hr => hupd r (fun hEq => hhead (hEq ▸ hr)))]
      have hTd : decide (enqTest g goal st.prev (c.1 + dp.1, c.2 + dp.2)) = true :=
        decide_eq_true hT
      simp only [List.map_cons, List.filter_cons, hTd, if_true]
      simp [List.append_assoc]
    · rw [enqStep_neg g goal c st dp hT, ih _ htail]
      have hTd : decide (enqTest g goal st.prev (c.1 + dp.1, c.2 + dp.2)) = false :=
        decide_eq_false hT
      simp only [List.map_cons, List.filter_cons, hTd, Bool.false_eq_true, if_false]

lemma bfsVisit_q (g : Grid) (goal c : Pos) (st : BfsState) :
    (bfsVisit g goal c st).q = st.q ++ newNbrs g goal st.prev c :=
  enqFold_q g goal c NBR_STEPS st (nbrList_nodup c)

lemma bfsVisit_prev (g : Grid) (goal c : Pos) (st : BfsState) (p : Pos) :
    (bfsVisit g goal c st).prev p =
      if p ∈ newNbrs g goal st.prev c then some (some c) else st.prev p :=
  enqFold_prev g goal c NBR_STEPS st (nbrList_nodup c) p

/-! ## The BFS loop invariant -/

/-- Invariant of the `while q:` loop, with ghost data: the discovered set
`dom` (the keys of `prev`) and the BFS distance `d p` at which each
discovered `p` was found. -/
structure BfsInv (g : Grid) (start goal : Pos) (st : BfsState)
    (dom : Finset Pos) (d : Pos → ℕ) : Prop where
  dom_char : ∀ p, p ∈ dom ↔ st.prev p ≠ none
  dom_sub : ∀ p ∈ dom, p = start ∨ inGrid g p
  prev_start : st.prev start = some none
  prev_none : ∀ p, st.prev p = some none → p = start
  prev_edge : ∀ p u, st.prev p = some (some u) →
    u ∈ dom ∧ adj4 u p ∧ Trav g goal p ∧ d p = d u + 1
  d_start : d start = 0
  d_real : ∀ p ∈ dom, BPath g start goal p (d p)
  d_min : ∀ p ∈ dom, ∀ n, BPath g start goal p n → d p ≤ n
  d_bound : ∀ p ∈ dom, d p + 1 ≤ dom.card
  q_dom : ∀ p ∈ st.q, p ∈ dom
  q_sorted : st.q.Pairwise fun a b => d a ≤ d b
  q_span : ∀ a ∈ st.q, ∀ b ∈ st.q, d b ≤ d a + 1
  processed : ∀ p ∈ dom, p ∈ st.q ∨ ∀ r, adj4 p r → Trav g goal r → r ∈ dom

lemma start_mem_dom {g : Grid} {start goal : Pos} {st : BfsState}
    {dom : Finset Pos} {d : Pos → ℕ} (inv : BfsInv g start goal st dom d) :
    start ∈ dom := by
  rw [inv.dom_char, inv.prev_start]
  simp

lemma bfsInit_inv (g : Grid) (start goal : Pos) :
    BfsInv g start goal (bfsInit start) {start} (fun _ => 0) := by
  refine ⟨?_, ?_, ?_, ?_, ?_, rfl, ?_, ?_, ?_, ?_, ?_, ?_, ?_⟩
  · intro p
    by_cases hp : p = start <;>
      simp [bfsInit, Function.update_apply, hp]
  · intro p hp
    exact Or.inl (Finset.mem_singleton.mp hp)
  · simp [bfsInit]
  · intro p h
    by_cases hp : p = start
    · exact hp
    · rw [bfsInit] at h
      simp only [Function.update_apply, if_neg hp] at h
      cases h
  · intro p u h
    by_cases hp : p = start
    · subst hp
      rw [bfsInit] at h
      simp at h
    · rw [bfsInit] at h
      simp only [Function.update_apply, if_neg hp] at h
      cases h
  · intro p hp
    rw [Finset.mem_singleton] at hp
    subst hp
    exact BPath.base
  · intro p _ n _
    exact Nat.zero_le n
  · intro p hp
    simp
  · intro p hp
    simp only [bfsInit, List.mem_singleton] at hp
    simp [hp]
  · simp [bfsInit]
  · intro a _ b _
    simp
  · intro p hp
    rw [Finset.mem_singleton] at hp
    subst hp
    exact Or.inl (by simp [bfsInit])

/-- Any BFS-traversable path that ends outside the discovered set is at least
one step longer than the distance of the queue head: the path must cross the
frontier, which sits entirely in the queue. -/
lemma bpath_lower_bound {g : Grid} {start goal : Pos} {st : BfsState}
    {dom : Finset Pos} {d : Pos → ℕ} (inv : BfsInv g start goal st dom d)
    {u : Pos} {rest : List Pos} (hq : st.q = u :: rest) :
    ∀ {p n}, BPath g start goal p n → p ∉ dom → d u + 1 ≤ n := by
  intro p n hp
  induction hp with
  | base =>
    intro hs
    exact absurd (start_mem_dom inv) hs
  | @step w v m hw hadj htrav ih =>
    intro hv
    by_cases hw' : w ∈ dom
    · rcases inv.processed w hw' with hq' | hclosed
      · have h1 : d u ≤ d w := by
          have hsorted := inv.q_sorted
          rw [hq, List.pairwise_cons] at hsorted
          rw [hq] at hq'
          rcases List.mem_cons.mp hq' with rfl | hmem
          · exact le_refl _
          · exact hsorted.1 _ hmem
        have h2 : d w ≤ m := inv.d_min w hw' m hw
        omega
      · exact absurd (hclosed v hadj htrav) hv
    · exact Nat.le_succ_of_le (ih hw')

/-- Discovered set after processing dequeued cell `u`. -/
def bfsNextDom (g : Grid) (goal : Pos) (st : BfsState) (dom : Finset Pos)
    (u : Pos) : Finset Pos :=
  dom ∪ (newNbrs g goal st.prev u).toFinset

/-- Ghost distance after processing dequeued cell `u`: the newly discovered
cells all sit one step beyond `u`. -/
def bfsNextD (g : Grid) (goal : Pos) (st : BfsState) (d : Pos → ℕ)
    (u : Pos) : Pos → ℕ :=
  fun p => if p ∈ newNbrs g goal st.prev u then d u + 1 else d p

lemma pairwise_of_forall_mem {α : Type} {R : α → α → Prop} :
    ∀ {l : List α}, (∀ a ∈ l, ∀ b ∈ l, R a b) → l.Pairwise R
  | [], _ => List.Pairwise.nil
  | a :: l, h => by
    rw [List.pairwise_cons]
    exact ⟨fun b hb => h a (List.mem_cons_self a l) b (List.mem_cons_of_mem a hb),
      pairwise_of_forall_mem fun x hx y hy =>
        h x (List.mem_cons_of_mem a hx) y (List.mem_cons_of_mem a hy)⟩

lemma bfs_step_inv {g : Grid} {start goal : Pos} {st : BfsState}
    {dom : Finset Pos} {d : Pos → ℕ} {u : Pos} {rest : List Pos}
    (inv : BfsInv g start goal st dom d) (hq : st.q = u :: rest) :
    BfsInv g start goal (bfsVisit g goal u { q := rest, prev := st.prev })
      (bfsNextDom g goal st dom u) (bfsNextD g goal st d u) ∧
    dom ⊆ bfsNextDom g goal st dom u ∧
    (bfsNextDom g goal st dom u).card = dom.card + (newNbrs g goal st.prev u).length ∧
    (bfsVisit g goal u { q := rest, prev := st.prev }).q.length =
      rest.length + (newNbrs g goal st.prev u).length := by
  have hudom : u ∈ dom := inv.q_dom u (by rw [hq]; exact List.mem_cons_self u rest)
  have hNfresh : ∀ p ∈ newNbrs g goal st.prev u, p ∉ dom := by
    intro p hp
    have hnone : st.prev p = none := (mem_newNbrs.mp hp).2.2.2
    rw [inv.dom_char]
    simp [hnone]
  have hNadj : ∀ p ∈ newNbrs g goal st.prev u, adj4 u p := fun p hp =>
    adj4_iff_mem_nbrList.mpr (mem_newNbrs.mp hp).1
  have hNtrav : ∀ p ∈ newNbrs g goal st.prev u, Trav g goal p := fun p hp =>
    ⟨(mem_newNbrs.mp hp).2.1, (mem_newNbrs.mp hp).2.2.1⟩
  have hdisj : Disjoint dom (newNbrs g goal st.prev u).toFinset := by
    rw [Finset.disjoint_right]
    intro p hp
    exact hNfresh p (List.mem_toFinset.mp hp)
  have hmem' : ∀ p, p ∈ bfsNextDom g goal st dom u ↔
      p ∈ dom ∨ p ∈ newNbrs g goal st.prev u := by
    intro p
    simp [bfsNextDom, Finset.mem_union, List.mem_toFinset]
  have hd'mem : ∀ p ∈ newNbrs g goal st.prev u, bfsNextD g goal st d u p = d u + 1 := by
    intro p hp
    simp [bfsNextD, hp]
  have hd'not : ∀ p, p ∉ newNbrs g goal st.prev u → bfsNextD g goal st d u p = d p := by
    intro p hp
    simp [bfsNextD, hp]
  have hd'dom : ∀ p ∈ dom, bfsNextD g goal st d u p = d p := fun p hp =>
    hd'not p (fun hmem => hNfresh p hmem hp)
  have hprev₂ : ∀ p, (bfsVisit g goal u { q := rest, prev := st.prev }).prev p =
      if p ∈ newNbrs g goal st.prev u then some (some u) else st.prev p :=
    fun p => bfsVisit_prev g goal u { q := rest, prev := st.prev } p
  have hq₂ : (bfsVisit g goal u { q := rest, prev := st.prev }).q =
      rest ++ newNbrs g goal st.prev u :=
    bfsVisit_q g goal u { q := rest, prev := st.prev }
  have hcard : (bfsNextDom g goal st dom u).card =
      dom.card + (newNbrs g goal st.prev u).length := by
    rw [bfsNextDom, Finset.card_union_of_disjoint hdisj,
      List.toFinset_card_of_nodup (newNbrs_nodup g goal st.prev u)]
  have hrestdom : ∀ p ∈ rest, p ∈ dom := fun p hp =>
    inv.q_dom p (by rw [hq]; exact List.mem_cons_of_mem u hp)
  have hsortc := inv.q_sorted
  rw [hq, List.pairwise_cons] at hsortc
  refine ⟨⟨?_, ?_, ?_, ?_, ?_, ?_, ?_, ?_, ?_, ?_, ?_, ?_, ?_⟩, ?_, hcard, ?_⟩
  · -- dom_char
    intro p
    rw [hmem', hprev₂]
    by_cases hp : p ∈ newNbrs g goal st.prev u
    · simp [hp]
    · simp [hp, inv.dom_char p]
  · -- dom_sub
    intro p hp
    rcases (hmem' p).mp hp with h | h
    · exact inv.dom_sub p h
    · exact Or.inr (hNtrav p h).1
  · -- prev_start
    rw [hprev₂]
    rw [if_neg (fun h => hNfresh start h (start_mem_dom inv))]
    exact inv.prev_start
  · -- prev_none
    intro p h
    rw [hprev₂] at h
    by_cases hp : p ∈ newNbrs g goal st.prev u
    · rw [if_pos hp] at h
      cases h
    · rw [if_neg hp] at h
      exact inv.prev_none p h
  · -- prev_edge
    intro p w h
    rw [hprev₂] at h
    by_cases hp : p ∈ newNbrs g goal st.prev u
    · rw [if_pos hp] at h
      simp only [Option.some.injEq] at h
      subst h
      refine ⟨(hmem' u).mpr (Or.inl hudom), hNadj p hp, hNtrav p hp, ?_⟩
      rw [hd'mem p hp, hd'dom u hudom]
    · rw [if_neg hp] at h
      obtain ⟨hw, hadj, htrav, hd⟩ := inv.prev_edge p w h
      have hpdom : p ∈ dom := (inv.dom_char p).mpr (by rw [h]; simp)
      refine ⟨(hmem' w).mpr (Or.inl hw), hadj, htrav, ?_⟩
      rw [hd'dom p hpdom, hd'dom w hw, hd]
  · -- d_start
    rw [hd'dom start (start_mem_dom inv)]
    exact inv.d_start
  · -- d_real
    intro p hp
    rcases (hmem' p).mp hp with h | h
    · rw [hd'dom p h]
      exact inv.d_real p h
    · rw [hd'mem p h]
      exact BPath.step (inv.d_real u hudom) (hNadj p h) (hNtrav p h)
  · -- d_min
    intro p hp n hn
    rcases (hmem' p).mp hp with h | h
    · rw [hd'dom p h]
      exact inv.d_min p h n hn
    · rw [hd'mem p h]
      exact bpath_lower_bound inv hq hn (hNfresh p h)
  · -- d_bound
    intro p hp
    rcases (hmem' p).mp hp with h | h
    · rw [hd'dom p h]
      have := inv.d_bound p h
      have hsub : dom.card ≤ (bfsNextDom g goal st dom u).card := by
        rw [hcard]; omega
      omega
    · rw [hd'mem p h]
      have h1 := inv.d_bound u hudom
      have h2 : 0 < (newNbrs g goal st.prev u).length :=
        List.length_pos.mpr (List.ne_nil_of_mem h)
      rw [hcard]
      omega
  · -- q_dom
    intro p hp
    rw [hq₂] at hp
    rcases List.mem_append.mp hp with h | h
    · exact (hmem' p).mpr (Or.inl (hrestdom p h))
    · exact (hmem' p).mpr (Or.inr h)
  · -- q_sorted
    rw [hq₂, List.pairwise_append]
    refine ⟨?_, ?_, ?_⟩
    · refine List.Pairwise.imp_of_mem ?_ hsortc.2
      intro a b ha hb hab
      rw [hd'dom a (hrestdom a ha), hd'dom b (hrestdom b hb)]
      exact hab
    · refine pairwise_of_forall_mem ?_
      intro a ha b hb
      rw [hd'mem a ha, hd'mem b hb]
    · intro a ha b hb
      rw [hd'dom a (hrestdom a ha), hd'mem b hb]
      have : d a ≤ d u + 1 := inv.q_span u (by rw [hq]; exact List.mem_cons_self u rest)
        a (by rw [hq]; exact List.mem_cons_of_mem u ha)
      omega
  · -- q_span
    intro a ha b hb
    rw [hq₂] at ha hb
    rcases List.mem_append.mp ha with ha' | ha' <;>
      rcases List.mem_append.mp hb with hb' | hb'
    · rw [hd'dom a (hrestdom a ha'), hd'dom b (hrestdom b hb')]
      exact inv.q_span a (by rw [hq]; exact List.mem_cons_of_mem u ha')
        b (by rw [hq]; exact List.mem_cons_of_mem u hb')
    · rw [hd'dom a (hrestdom a ha'), hd'mem b hb']
      have : d u ≤ d a := hsortc.1 a ha'
      omega
    · rw [hd'mem a ha', hd'dom b (hrestdom b hb')]
      have : d b ≤ d u + 1 := inv.q_span u (by rw [hq]; exact List.mem_cons_self u rest)
        b (by rw [hq]; exact List.mem_cons_of_mem u hb')
      omega
    · rw [hd'mem a ha', hd'mem b hb']
      omega
  · -- processed
    intro p hp
    rcases (hmem' p).mp hp with h | h
    · by_cases hpu : p = u
      · subst hpu
        right
        intro r hadj htrav
        by_cases hr : st.prev r = none
        · exact (hmem' r).mpr (Or.inr (mem_newNbrs.mpr
            ⟨adj4_iff_mem_nbrList.mp hadj, htrav.1, htrav.2, hr⟩))
        · exact (hmem' r).mpr (Or.inl ((inv.dom_char r).mpr hr))
      · rcases inv.processed p h with hmem | hclosed
        · rw [hq] at hmem
          rcases List.mem_cons.mp hmem with h' | h'
          · exact absurd h' hpu
          · left
            rw [hq₂]
            exact List.mem_append_left _ h'
        · right
          intro r hr htr
          exact (hmem' r).mpr (Or.inl (hclosed r hr htr))
    · left
      rw [hq₂]
      exact List.mem_append_right _ h
  · -- dom ⊆ dom'
    intro p hp
    exact (hmem' p).mpr (Or.inl hp)
  · -- queue length
    rw [hq₂, List.length_append]

/-- What holds when the BFS loop has finished: the invariant plus either the
goal is discovered (the loop dequeued it and broke) or the discovered set is
closed under traversable neighbors (the queue was exhausted). -/
def BfsDone (g : Grid) (start goal : Pos) (st : BfsState) : Prop :=
  ∃ dom d, BfsInv g start goal st dom d ∧
    (goal ∈ dom ∨ ∀ p ∈ dom, ∀ r, adj4 p r → Trav g goal r → r ∈ dom)

lemma dom_card_le {g : Grid} {start goal : Pos} {st : BfsState}
    {dom : Finset Pos} {d : Pos → ℕ} (inv : BfsInv g start goal st dom d) :
    dom.card ≤ g.cols * g.rows + 1 := by
  have hsub : dom ⊆ insert start (gridBox g) := by
    intro p hp
    rcases inv.dom_sub p hp with h | h
    · simp [h]
    · exact Finset.mem_insert_of_mem (mem_gridBox.mpr h)
  calc dom.card ≤ (insert start (gridBox g)).card := Finset.card_le_card hsub
    _ ≤ (gridBox g).card + 1 := Finset.card_insert_le _ _
    _ = g.cols * g.rows + 1 := by rw [card_gridBox]

lemma bfsLoop_master (g : Grid) (start goal : Pos) :
    ∀ (fuel : ℕ) (st : BfsState) (dom : Finset Pos) (d : Pos → ℕ),
      BfsInv g start goal st dom d →
      g.cols * g.rows + 1 + st.q.length ≤ fuel + dom.card →
      BfsDone g start goal (bfsLoop g goal fuel st) := by
  intro fuel
  induction fuel with
  | zero =>
    intro st dom d inv hm
    have hcard := dom_card_le inv
    have hq : st.q = [] := List.length_eq_zero.mp (by omega)
    exact ⟨dom, d, inv, Or.inr (fun p hp r hr htr => by
      rcases inv.processed p hp with hmem | hcl
      · rw [hq] at hmem; cases hmem
      · exact hcl r hr htr)⟩
  | succ fuel ih =>
    intro st dom d inv hm
    rcases hqe : st.q with _ | ⟨c, rest⟩
    · simp only [bfsLoop, hqe]
      exact ⟨dom, d, inv, Or.inr (fun p hp r hr htr => by
        rcases inv.processed p hp with hmem | hcl
        · rw [hqe] at hmem; cases hmem
        · exact hcl r hr htr)⟩
    · by_cases hc : c = goal
      · simp only [bfsLoop, hqe, if_pos hc]
        refine ⟨dom, d, inv, Or.inl ?_⟩
        rw [← hc]
        exact inv.q_dom c (by rw [hqe]; exact List.mem_cons_self c rest)
      · obtain ⟨inv', hsub, hcard', hlen'⟩ := bfs_step_inv inv hqe
        simp only [bfsLoop, hqe, if_neg hc]
        apply ih _ _ _ inv'
        rw [hlen', hcard']
        have hql : st.q.length = rest.length + 1 := by rw [hqe]; rfl
        omega

lemma bfs_done (g : Grid) (start goal : Pos) :
    BfsDone g start goal (bfsLoop g goal (bfsFuel g) (bfsInit start)) := by
  apply bfsLoop_master g start goal (bfsFuel g) _ {start} (fun _ => 0)
    (bfsInit_inv g start goal)
  have hmc : g.rows * g.cols = g.cols * g.rows := Nat.mul_comm _ _
  simp only [bfsFuel, bfsInit, List.length_singleton, Finset.card_singleton]
  omega

/-- The predecessor chain of a discovered node is a reversed BFS path: it
starts at the node, ends at `start`, steps backwards along 4-adjacency, and
has length one more than the BFS distance. -/
lemma walkPrev_spec {g : Grid} {start goal : Pos} {st : BfsState}
    {dom : Finset Pos} {d : Pos → ℕ} (inv : BfsInv g start goal st dom d) :
    ∀ (n : ℕ) (p : Pos), p ∈ dom → d p = n → ∀ fuel, n < fuel →
      (walkPrev st.prev fuel p).head? = some p ∧
      (walkPrev st.prev fuel p).getLast? = some start ∧
      (walkPrev st.prev fuel p).length = n + 1 ∧
      List.Chain' (fun a b => adj4 b a) (walkPrev st.prev fuel p) ∧
      ∀ x ∈ walkPrev st.prev fuel p, x = start ∨ Trav g goal x := by
  intro n
  induction n using Nat.strong_induction_on with
  | _ n ih =>
    intro p hp hd fuel hfuel
    match fuel, hfuel with
    | f + 1, hfuel =>
      by_cases hps : p = start
      · subst hps
        have hn : n = 0 := by rw [← hd, inv.d_start]
        subst hn
        simp only [walkPrev, inv.prev_start]
        refine ⟨rfl, rfl, rfl, List.chain'_singleton _, ?_⟩
        intro x hx
        rw [List.mem_singleton] at hx
        exact Or.inl hx
      · obtain ⟨w, hw⟩ : ∃ w, st.prev p = some (some w) := by
          have h1 : st.prev p ≠ none := (inv.dom_char p).mp hp
          match hsp : st.prev p with
          | none => exact absurd hsp h1
          | some none => exact absurd (inv.prev_none p hsp) hps
          | some (some w) => exact ⟨w, rfl⟩
        obtain ⟨hwdom, hadj, htrav, hdp⟩ := inv.prev_edge p w hw
        have hdw : d w < n := by omega
        obtain ⟨ih1, ih2, ih3, ih4, ih5⟩ := ih (d w) hdw w hwdom rfl f (by omega)
        have hunfold : walkPrev st.prev (f + 1) p = p :: walkPrev st.prev f w := by
          simp only [walkPrev, hw]
        rw [hunfold]
        have hne : walkPrev st.prev f w ≠ [] := by
          intro h0
          rw [h0] at ih1
          cases ih1
        refine ⟨rfl, ?_, ?_, ?_, ?_⟩
        · obtain ⟨b, L, hbl⟩ := List.exists_cons_of_ne_nil hne
          rw [hbl, List.getLast?_cons_cons]
          rw [hbl] at ih2
          exact ih2
        · simp only [List.length_cons, ih3]
          omega
        · rw [List.chain'_cons']
          refine ⟨?_, ih4⟩
          intro b hb
          rw [ih1] at hb
          rw [Option.mem_def] at hb
          injection hb with hb
          subst hb
          exact hadj
        · intro x hx
          rcases List.mem_cons.mp hx with rfl | hx
          · exact Or.inr htrav
          · exact ih5 x hx

lemma bfs_found_spec (g : Grid) (start goal : Pos) {dom : Finset Pos}
    {d : Pos → ℕ}
    (inv : BfsInv g start goal (bfsLoop g goal (bfsFuel g) (bfsInit start)) dom d)
    (hgoal : goal ∈ dom) :
    (bfs_shortest_path g start goal).head? = some start ∧
    (bfs_shortest_path g start goal).getLast? = some goal ∧
    (bfs_shortest_path g start goal).length = d goal + 1 ∧
    List.Chain' adj4 (bfs_shortest_path g start goal) ∧
    ∀ x ∈ bfs_shortest_path g start goal, x = start ∨ Trav g goal x := by
  have hmc : g.rows * g.cols = g.cols * g.rows := Nat.mul_comm _ _
  have hfuel : d goal < g.rows * g.cols + 2 := by
    have h1 := inv.d_bound goal hgoal
    have h2 := dom_card_le inv
    omega
  have hne : (bfsLoop g goal (bfsFuel g) (bfsInit start)).prev goal ≠ none :=
    (inv.dom_char goal).mp hgoal
  obtain ⟨h1, h2, h3, h4, h5⟩ := walkPrev_spec inv (d goal) goal hgoal rfl _ hfuel
  unfold bfs_shortest_path
  rw [if_neg hne]
  refine ⟨?_, ?_, ?_, ?_, ?_⟩
  · rw [List.head?_reverse]
    exact h2
  · rw [List.getLast?_reverse]
    exact h1
  · rw [List.length_reverse]
    exact h3
  · rw [List.chain'_reverse]
    exact h4
  · intro x hx
    exact h5 x (List.mem_reverse.mp hx)

lemma bfs_not_found (g : Grid) (start goal : Pos) {dom : Finset Pos}
    {d : Pos → ℕ}
    (inv : BfsInv g start goal (bfsLoop g goal (bfsFuel g) (bfsInit start)) dom d)
    (hgoal : goal ∉ dom) :
    bfs_shortest_path g start goal = [] := by
  have hnone : (bfsLoop g goal (bfsFuel g) (bfsInit start)).prev goal = none := by
    by_contra h
    exact hgoal ((inv.dom_char goal).mpr h)
  unfold bfs_shortest_path
  rw [if_pos hnone]

lemma bpath_closed {g : Grid} {start goal : Pos} {dom : Finset Pos}
    (hstart : start ∈ dom)
    (hclosed : ∀ p ∈ dom, ∀ r, adj4 p r → Trav g goal r → r ∈ dom) :
    ∀ {p n}, BPath g start goal p n → p ∈ dom := by
  intro p n hp
  induction hp with
  | base => exact hstart
  | @step w v m hw hadj htrav ih => exact hclosed w ih v hadj htrav

lemma bpath_of_list {g : Grid} {start goal : Pos} :
    ∀ (l : List Pos) (p : Pos), l.head? = some start → l.getLast? = some p →
      List.Chain' adj4 l → (∀ x ∈ l, inGrid g x ∧ g.cell x = ' ') →
      BPath g start goal p (l.length - 1) := by
  intro l
  induction l using List.reverseRecOn with
  | nil => intro p h _ _ _; cases h
  | append_singleton l x ihl =>
    intro p hh hl hc hm
    have hpx : x = p := by
      rw [List.getLast?_concat] at hl
      exact Option.some.inj hl
    subst hpx
    cases l with
    | nil =>
      have hh' : some x = some start := hh
      injection hh' with hh'
      subst hh'
      exact BPath.base
    | cons b l' =>
      have hh' : (b :: l').head? = some start := hh
      obtain ⟨y, hy⟩ : ∃ y, (b :: l').getLast? = some y := by
        cases hgl : (b :: l').getLast? with
        | none => simp at hgl
        | some y => exact ⟨y, rfl⟩
      obtain ⟨hc1, -, hrel⟩ := List.chain'_append.mp hc
      have hadj : adj4 y x := hrel y hy x rfl
      have hmem' : ∀ z ∈ b :: l', inGrid g z ∧ g.cell z = ' ' := fun z hz =>
        hm z (List.mem_append_left _ hz)
      have hx : inGrid g x ∧ g.cell x = ' ' :=
        hm x (List.mem_append_right _ (List.mem_singleton_self x))
      have ihb := ihl y hh' hy hc1 hmem'
      have hstep := BPath.step ihb hadj ⟨hx.1, Or.inl hx.2⟩
      have hlen : (b :: l').length - 1 + 1 = ((b :: l') ++ [x]).length - 1 := by
        simp [List.length_append]
      exact hlen ▸ hstep

lemma passagePath_bpath {g : Grid} {start goal : Pos} {l : List Pos}
    (h : PassagePath g start goal l) : BPath g start goal goal (l.length - 1) :=
  bpath_of_list l goal h.1 h.2.1 h.2.2.1 h.2.2.2

lemma bfs_goal_found (g : Grid) (start goal : Pos)
    (hex : ∃ l, PassagePath g start goal l) :
    ∃ dom d,
      BfsInv g start goal (bfsLoop g goal (bfsFuel g) (bfsInit start)) dom d ∧
      goal ∈ dom := by
  obtain ⟨dom, d, inv, hdone⟩ := bfs_done g start goal
  refine ⟨dom, d, inv, ?_⟩
  rcases hdone with h | hclosed
  · exact h
  · obtain ⟨l, hl⟩ := hex
    exact bpath_closed (start_mem_dom inv) hclosed (passagePath_bpath hl)

/-! ## C3: BFS returns a shortest passage path -/

/-- C3: whenever some passage path from `start` to `goal` exists, the solver
returns a sequence that starts at `start`, ends at `goal`, is itself a
passage path, and is at least as short as every passage path — so its length
is exactly one more than the true shortest-path distance of the 4-adjacency
passage graph. -/
theorem c3_shortest_path (g : Grid) (start goal : Pos)
    (hex : ∃ l, PassagePath g start goal l) :
    (bfs_shortest_path g start goal).head? = some start ∧
    (bfs_shortest_path g start goal).getLast? = some goal ∧
    PassagePath g start goal (bfs_shortest_path g start goal) ∧
    ∀ l, PassagePath g start goal l →
      (bfs_shortest_path g start goal).length ≤ l.length := by
  obtain ⟨dom, d, inv, hgoal⟩ := bfs_goal_found g start goal hex
  obtain ⟨h1, h2, h3, h4, h5⟩ := bfs_found_spec g start goal inv hgoal
  obtain ⟨l0, hl0⟩ := hex
  have hstartp : inGrid g start ∧ g.cell start = ' ' :=
    hl0.2.2.2 start (List.mem_of_mem_head? hl0.1)
  have hgoalp : inGrid g goal ∧ g.cell goal = ' ' :=
    hl0.2.2.2 goal (List.mem_of_mem_getLast? hl0.2.1)
  refine ⟨h1, h2, ⟨h1, h2, h4, ?_⟩, ?_⟩
  · intro x hx
    rcases h5 x hx with rfl | htrav
    · exact hstartp
    · refine ⟨htrav.1, ?_⟩
      rcases htrav.2 with h | rfl
      · exact h
      · exact hgoalp.2
  · intro l hl
    have hb := passagePath_bpath hl
    have hmin := inv.d_min goal hgoal _ hb
    have hlen : 1 ≤ l.length := by
      cases l with
      | nil => cases hl.1
      | cons a t => simp
    rw [h3]
    omega

lemma gOpen_pp : PassagePath gOpen (0, 0) (1, 0) [(0, 0), (1, 0)] :=
  ⟨rfl, rfl, List.chain'_pair.mpr ⟨(1, 0), by decide, by decide⟩, by decide⟩

theorem c3_witness :
    (∃ l, PassagePath gOpen (0, 0) (1, 0) l) ∧
      ((bfs_shortest_path gOpen (0, 0) (1, 0)).head? = some (0, 0) ∧
       (bfs_shortest_path gOpen (0, 0) (1, 0)).getLast? = some (1, 0) ∧
       PassagePath gOpen (0, 0) (1, 0) (bfs_shortest_path gOpen (0, 0) (1, 0)) ∧
       ∀ l, PassagePath gOpen (0, 0) (1, 0) l →
         (bfs_shortest_path gOpen (0, 0) (1, 0)).length ≤ l.length) :=
  ⟨⟨[(0, 0), (1, 0)], gOpen_pp⟩,
    c3_shortest_path gOpen (0, 0) (1, 0) ⟨[(0, 0), (1, 0)], gOpen_pp⟩⟩

/-! ## C6: cells along a returned path -/

/-- C6, counterexample: the start cell is enqueued unconditionally, so on an
all-wall grid with the goal adjacent to the start the solver returns a
non-empty path whose first pair contains a non-passage cell. -/
theorem c6_counterexample :
    bfs_shortest_path gAllWall (0, 0) (1, 0) = [(0, 0), (1, 0)] ∧
      ¬gAllWall.cell (0, 0) = ' ' := by decide

/-- C6, amended: every consecutive pair of a non-empty returned path is
4-adjacent, and every coordinate other than `start` is an in-bounds cell
that is a passage or the goal itself (so when `start` and `goal` are passage
cells, every coordinate is a passage cell). -/
theorem c6_path_cells (g : Grid) (start goal : Pos)
    (hne : bfs_shortest_path g start goal ≠ []) :
    List.Chain' adj4 (bfs_shortest_path g start goal) ∧
    ∀ p ∈ bfs_shortest_path g start goal, p ≠ start →
      inGrid g p ∧ (g.cell p = ' ' ∨ p = goal) := by
  obtain ⟨dom, d, inv, -⟩ := bfs_done g start goal
  by_cases hgoal : goal ∈ dom
  · obtain ⟨-, -, -, h4, h5⟩ := bfs_found_spec g start goal inv hgoal
    refine ⟨h4, ?_⟩
    intro p hp hps
    rcases h5 p hp with rfl | htrav
    · exact absurd rfl hps
    · exact htrav
  · exact absurd (bfs_not_found g start goal inv hgoal) hne

theorem c6_witness :
    bfs_shortest_path gOpen (0, 0) (1, 0) ≠ [] ∧
      (List.Chain' adj4 (bfs_shortest_path gOpen (0, 0) (1, 0)) ∧
        ∀ p ∈ bfs_shortest_path gOpen (0, 0) (1, 0), p ≠ (0, 0) →
          inGrid gOpen p ∧ (gOpen.cell p = ' ' ∨ p = (1, 0))) :=
  ⟨by decide, c6_path_cells gOpen (0, 0) (1, 0) (by decide)⟩

/-! ## C8: exhaustion without a path yields the empty sequence -/

/-- C8, counterexample: on the all-wall two-cell grid no passage path from
`(0,0)` to `(1,0)` exists, yet the solver returns a non-empty sequence,
because the start cell is enqueued unconditionally and the goal is
traversable even when it is a wall. -/
theorem c8_counterexample :
    (¬∃ l, PassagePath gAllWall (0, 0) (1, 0) l) ∧
      bfs_shortest_path gAllWall (0, 0) (1, 0) ≠ [] := by
  constructor
  · rintro ⟨l, hh, -, -, hm⟩
    have hs : ((0, 0) : Pos) ∈ l := List.mem_of_mem_head? hh
    have := (hm _ hs).2
    simp [gAllWall] at this
  · decide

/-- C8, amended: for in-bounds passage `start` and `goal`, when no passage
path between them exists the solver returns the empty sequence (and raises
no error). -/
theorem c8_no_path (g : Grid) (start goal : Pos)
    (hs : inGrid g start ∧ g.cell start = ' ')
    (hg : inGrid g goal ∧ g.cell goal = ' ')
    (hnone : ¬∃ l, PassagePath g start goal l) :
    bfs_shortest_path g start goal = [] := by
  obtain ⟨dom, d, inv, -⟩ := bfs_done g start goal
  by_cases hgoal : goal ∈ dom
  · exfalso
    obtain ⟨h1, h2, -, h4, h5⟩ := bfs_found_spec g start goal inv hgoal
    apply hnone
    refine ⟨bfs_shortest_path g start goal, h1, h2, h4, ?_⟩
    intro x hx
    rcases h5 x hx with rfl | htrav
    · exact hs
    · refine ⟨htrav.1, ?_⟩
      rcases htrav.2 with h | rfl
      · exact h
      · exact hg.2
  · exact bfs_not_found g start goal inv hgoal

lemma gSplit_stuck : ∀ (l : List Pos), List.Chain' adj4 l →
    (∀ x ∈ l, inGrid gSplit x ∧ gSplit.cell x = ' ') →
    l.head? = some (0, 0) → ∀ x ∈ l, x = ((0, 0) : Pos) := by
  intro l
  induction l with
  | nil => intro _ _ _ x hx; cases hx
  | cons a t ih =>
    intro hc hm hh x hx
    have hh' : some a = some ((0, 0) : Pos) := hh
    injection hh' with ha
    subst ha
    cases t with
    | nil =>
      rw [List.mem_singleton] at hx
      exact hx
    | cons b t' =>
      exfalso
      have hadj : adj4 (0, 0) b := (List.chain'_cons.mp hc).1
      have hb := hm b (List.mem_cons_of_mem _ (List.mem_cons_self b t'))
      obtain ⟨dp, hdp, rfl⟩ := hadj
      simp only [NBR_STEPS, List.mem_cons, List.not_mem_nil, or_false] at hdp
      rcases hdp with rfl | rfl | rfl | rfl <;>
        simp [gSplit, inGrid] at hb
  

lemma gSplit_no_path : ¬∃ l, PassagePath gSplit (0, 0) (2, 0) l := by
  rintro ⟨l, hh, hl, hc, hm⟩
  have h20 : ((2, 0) : Pos) ∈ l := List.mem_of_mem_getLast? hl
  have := gSplit_stuck l hc hm hh (2, 0) h20
  exact absurd this (by decide)

theorem c8_witness :
    ((inGrid gSplit (0, 0) ∧ gSplit.cell (0, 0) = ' ') ∧
     (inGrid gSplit (2, 0) ∧ gSplit.cell (2, 0) = ' ') ∧
     ¬∃ l, PassagePath gSplit (0, 0) (2, 0) l) ∧
    bfs_shortest_path gSplit (0, 0) (2, 0) = [] :=
  ⟨⟨by decide, by decide, gSplit_no_path⟩,
    c8_no_path gSplit (0, 0) (2, 0) (by decide) (by decide) gSplit_no_path⟩

/-! ## Maze generator: invariants -/

lemma dstep_ne (d : Dir) (p : Pos) : dstep d p ≠ p := by
  cases d <;> simp [dstep, dvec, Prod.ext_iff]

lemma dstep_opp (d : Dir) (p : Pos) : dstep (OPPOSITE d) (dstep d p) = p := by
  cases d <;> simp [dstep, dvec, OPPOSITE]

lemma opp_opp (d : Dir) : OPPOSITE (OPPOSITE d) = d := by
  cases d <;> rfl

lemma dstep_inj_dir {d d' : Dir} {p : Pos} (h : dstep d p = dstep d' p) : d = d' := by
  cases d <;> cases d' <;> simp_all [dstep, dvec, Prod.ext_iff]

lemma mem_DIRS (d : Dir) : d ∈ DIRS := by
  cases d <;> simp [DIRS]

/-- All in-bounds cells of the maze. -/
def cellBox (cols rows : ℕ) : Finset Pos :=
  Finset.Ico (0 : ℤ) (cols : ℤ) ×ˢ Finset.Ico (0 : ℤ) (rows : ℤ)

lemma mem_cellBox {cols rows : ℕ} {p : Pos} :
    p ∈ cellBox cols rows ↔ inBoundsCell cols rows p := by
  simp only [cellBox, Finset.mem_product, Finset.mem_Ico, inBoundsCell]
  tauto

lemma card_cellBox (cols rows : ℕ) : (cellBox cols rows).card = cols * rows := by
  simp [cellBox, Int.card_Ico]

/-- One open passage recorded at `p`: some open direction of `p` leads to
`q`. -/
def openStep (cells : Pos → Finset Dir) (p q : Pos) : Prop :=
  ∃ d ∈ cells p, dstep d p = q

instance (cells : Pos → Finset Dir) (p q : Pos) : Decidable (openStep cells p q) :=
  inferInstanceAs (Decidable (∃ d ∈ cells p, dstep d p = q))

lemma mem_unvisitedNeighbors {cols rows : ℕ} {visited : Finset Pos} {p : Pos}
    {d : Dir} {n : Pos} :
    (d, n) ∈ unvisitedNeighbors cols rows visited p ↔
      n = dstep d p ∧ inBoundsCell cols rows n ∧ n ∉ visited := by
  simp only [unvisitedNeighbors, List.mem_filterMap]
  constructor
  · rintro ⟨d', -, h⟩
    split_ifs at h with hcond
    · obtain ⟨rfl, rfl⟩ : d' = d ∧ dstep d' p = n := by
        injection h with h1
        exact ⟨congrArg Prod.fst h1, congrArg Prod.snd h1⟩
      exact ⟨rfl, hcond.1, hcond.2⟩
  · rintro ⟨rfl, hb, hv⟩
    exact ⟨d, mem_DIRS d, by rw [if_pos ⟨hb, hv⟩]⟩

lemma unvisitedNeighbors_nil {cols rows : ℕ} {visited : Finset Pos} {p : Pos} :
    unvisitedNeighbors cols rows visited p = [] ↔
      ∀ d, inBoundsCell cols rows (dstep d p) → dstep d p ∈ visited := by
  constructor
  · intro h d hb
    by_contra hv
    have : (d, dstep d p) ∈ unvisitedNeighbors cols rows visited p :=
      mem_unvisitedNeighbors.mpr ⟨rfl, hb, hv⟩
    rw [h] at this
    cases this
  · intro h
    rw [unvisitedNeighbors, List.filterMap_eq_nil_iff]
    intro d _
    rw [if_neg]
    rintro ⟨hb, hv⟩
    exact hv (h d hb)

/-- Invariant of the generator loop.  The `tree` field carries a ghost parent
pointer and a discovery rank: every recorded passage joins a cell to its
parent, discovered strictly earlier — this is what makes the final maze
acyclic. -/
structure GenInv (cols rows : ℕ) (s : GenState) : Prop where
  vbox : s.visited ⊆ cellBox cols rows
  startv : ((0, 0) : Pos) ∈ s.visited
  stackv : ∀ p ∈ s.stack, p ∈ s.visited
  sym : ∀ p d, d ∈ s.cells p → OPPOSITE d ∈ s.cells (dstep d p)
  edgev : ∀ p d, d ∈ s.cells p → p ∈ s.visited ∧ dstep d p ∈ s.visited
  count : (cellBox cols rows).sum (fun p => (s.cells p).card) + 2 = 2 * s.visited.card
  conn : ∀ p ∈ s.visited, Relation.ReflTransGen (openStep s.cells) (0, 0) p
  done : ∀ p ∈ s.visited, p ∈ s.stack ∨
    ∀ d, inBoundsCell cols rows (dstep d p) → dstep d p ∈ s.visited
  tree : ∃ (par : Pos → Pos) (rank : Pos → ℕ),
    (∀ v ∈ s.visited, rank v ≤ s.k) ∧
    ∀ p d, d ∈ s.cells p →
      (par p = dstep d p ∧ rank (dstep d p) < rank p) ∨
      (par (dstep d p) = p ∧ rank p < rank (dstep d p))

lemma genInv_init (cols rows : ℕ) (hc : 1 ≤ cols) (hr : 1 ≤ rows) :
    GenInv cols rows initGenState := by
  refine ⟨?_, ?_, ?_, ?_, ?_, ?_, ?_, ?_, ?_⟩
  · intro p hp
    simp only [initGenState, Finset.mem_singleton] at hp
    subst hp
    rw [mem_cellBox]
    exact ⟨le_refl _, by show (0 : ℤ) < (cols : ℤ); exact_mod_cast hc,
      le_refl _, by show (0 : ℤ) < (rows : ℤ); exact_mod_cast hr⟩
  · exact Finset.mem_singleton_self _
  · intro p hp
    simp only [initGenState, List.mem_singleton] at hp
    simp [initGenState, hp]
  · intro p d hd
    simp [initGenState] at hd
  · intro p d hd
    simp [initGenState] at hd
  · simp [initGenState]
  · intro p hp
    simp only [initGenState, Finset.mem_singleton] at hp
    subst hp
    exact Relation.ReflTransGen.refl
  · intro p hp
    simp only [initGenState, Finset.mem_singleton] at hp
    subst hp
    exact Or.inl (by simp [initGenState])
  · exact ⟨id, fun _ => 0, fun v _ => Nat.zero_le _, fun p d hd => by
      simp [initGenState] at hd⟩

lemma carve_apply (cells : Pos → Finset Dir) (p : Pos) (d : Dir) (n : Pos)
    (q' : Pos) :
    carve cells p d n q' =
      if q' = n then insert (OPPOSITE d) (cells n)
      else if q' = p then insert d (cells p) else cells q' := by
  unfold carve
  rcases eq_or_ne q' n with rfl | h1
  · simp [Function.update_same]
  · rw [Function.update_noteq h1, if_neg h1]
    rcases eq_or_ne q' p with rfl | h2
    · simp [Function.update_same]
    · rw [Function.update_noteq h2, if_neg h2]

lemma genInv_carve {cols rows : ℕ} {s : GenState} (inv : GenInv cols rows s)
    {p : Pos} {rest : List Pos} (hst : s.stack = p :: rest)
    {d : Dir} {n : Pos} (hn : n = dstep d p) (hb : inBoundsCell cols rows n)
    (hnv : n ∉ s.visited) :
    GenInv cols rows
      { cells := carve s.cells p d n, visited := insert n s.visited,
        stack := n :: p :: rest, k := s.k + 1 } := by
  have hpv : p ∈ s.visited := inv.stackv p (by rw [hst]; exact List.mem_cons_self p rest)
  have hpn : p ≠ n := by
    rw [hn]
    intro h
    exact dstep_ne d p h.symm
  have hcellsn : ∀ d', d' ∉ s.cells n := fun d' hd' => hnv (inv.edgev n d' hd').1
  have hdnotp : d ∉ s.cells p := fun hd => hnv (hn ▸ (inv.edgev p d hd).2)
  have hopp_step : dstep (OPPOSITE d) n = p := by rw [hn]; exact dstep_opp d p
  have hbox_n : n ∈ cellBox cols rows := mem_cellBox.mpr hb
  have hbox_p : p ∈ cellBox cols rows := inv.vbox hpv
  have hmem_carve : ∀ q' d', d' ∈ carve s.cells p d n q' ↔
      (q' = n ∧ (d' = OPPOSITE d ∨ d' ∈ s.cells n)) ∨
      (q' ≠ n ∧ q' = p ∧ (d' = d ∨ d' ∈ s.cells p)) ∨
      (q' ≠ n ∧ q' ≠ p ∧ d' ∈ s.cells q') := by
    intro q' d'
    rw [carve_apply]
    rcases eq_or_ne q' n with rfl | h1
    · simp [Finset.mem_insert]
    · rw [if_neg h1]
      rcases eq_or_ne q' p with rfl | h2
      · simp [h1, Finset.mem_insert]
      · simp [h1, h2]
  have hsup : ∀ q', s.cells q' ⊆ carve s.cells p d n q' := by
    intro q' x hx
    rw [carve_apply]
    split_ifs with h1 h2
    · subst h1; exact Finset.mem_insert_of_mem hx
    · subst h2; exact Finset.mem_insert_of_mem hx
    · exact hx
  refine ⟨?_, ?_, ?_, ?_, ?_, ?_, ?_, ?_, ?_⟩
  · -- vbox
    intro q' hq'
    rcases Finset.mem_insert.mp hq' with rfl | hq'
    · exact hbox_n
    · exact inv.vbox hq'
  · exact Finset.mem_insert_of_mem inv.startv
  · -- stackv
    intro q' hq'
    rcases List.mem_cons.mp hq' with rfl | hq'
    · exact Finset.mem_insert_self _ _
    · refine Finset.mem_insert_of_mem (inv.stackv q' ?_)
      rw [hst]
      exact hq'
  · -- sym
    intro q' d' hd'
    rcases (hmem_carve q' d').mp hd' with ⟨rfl, hcase⟩ | ⟨h1, rfl, hcase⟩ | ⟨h1, h2, hold⟩
    · rcases hcase with rfl | hold
      · rw [hopp_step, opp_opp]
        exact (hmem_carve p d).mpr (Or.inr (Or.inl ⟨hpn, rfl, Or.inl rfl⟩))
      · exact absurd hold (hcellsn d')
    · rcases hcase with rfl | hold
      · rw [← hn]
        exact (hmem_carve n (OPPOSITE d')).mpr (Or.inl ⟨rfl, Or.inl rfl⟩)
      · have hsym := inv.sym q' d' hold
        rcases eq_or_ne (dstep d' q') n with he | he
        · exact absurd (he ▸ (inv.edgev q' d' hold).2) hnv
        · rcases eq_or_ne (dstep d' q') q' with he2 | he2
          · exact absurd he2 (dstep_ne d' q')
          · exact (hmem_carve _ _).mpr (Or.inr (Or.inr ⟨he, he2, hsym⟩))
    · have hsym := inv.sym q' d' hold
      rcases eq_or_ne (dstep d' q') n with he | he
      · exact absurd (he ▸ (inv.edgev q' d' hold).2) hnv
      · rcases eq_or_ne (dstep d' q') p with he2 | he2
        · refine (hmem_carve _ _).mpr (Or.inr (Or.inl ⟨?_, he2, Or.inr (he2 ▸ hsym)⟩))
          rw [he2]
          exact hpn
        · exact (hmem_carve _ _).mpr (Or.inr (Or.inr ⟨he, he2, hsym⟩))
  · -- edgev
    intro q' d' hd'
    rcases (hmem_carve q' d').mp hd' with ⟨rfl, hcase⟩ | ⟨h1, rfl, hcase⟩ | ⟨h1, h2, hold⟩
    · rcases hcase with rfl | hold
      · rw [hopp_step]
        exact ⟨Finset.mem_insert_self _ _, Finset.mem_insert_of_mem hpv⟩
      · exact absurd hold (hcellsn d')
    · rcases hcase with rfl | hold
      · rw [← hn]
        exact ⟨Finset.mem_insert_of_mem hpv, Finset.mem_insert_self _ _⟩
      · obtain ⟨hv1, hv2⟩ := inv.edgev q' d' hold
        exact ⟨Finset.mem_insert_of_mem hv1, Finset.mem_insert_of_mem hv2⟩
    · obtain ⟨hv1, hv2⟩ := inv.edgev q' d' hold
      exact ⟨Finset.mem_insert_of_mem hv1, Finset.mem_insert_of_mem hv2⟩
  · -- count
    have hpn' : p ∈ cellBox cols rows \ {n} := Finset.mem_sdiff.mpr ⟨hbox_p, by simp [hpn]⟩
    have hcardfun : (fun q' => (carve s.cells p d n q').card) =
        Function.update (Function.update (fun q' => (s.cells q').card) p
          ((s.cells p).card + 1)) n ((s.cells n).card + 1) := by
      funext q'
      rw [carve_apply]
      rcases eq_or_ne q' n with rfl | h1
      · rw [if_pos rfl, Function.update_same,
          Finset.card_insert_of_not_mem (hcellsn _)]
      · rw [if_neg h1, Function.update_noteq h1]
        rcases eq_or_ne q' p with rfl | h2
        · rw [if_pos rfl, Function.update_same,
            Finset.card_insert_of_not_mem hdnotp]
        · rw [if_neg h2, Function.update_noteq h2]
    have hsum : (cellBox cols rows).sum (fun q' => (carve s.cells p d n q').card) =
        (cellBox cols rows).sum (fun q' => (s.cells q').card) + 2 := by
      rw [hcardfun, Finset.sum_update_of_mem hbox_n, Finset.sum_update_of_mem hpn']
      rw [Finset.sum_eq_add_sum_diff_singleton hbox_n (fun q' => (s.cells q').card),
        Finset.sum_eq_add_sum_diff_singleton hpn' (fun q' => (s.cells q').card)]
      omega
    show (cellBox cols rows).sum (fun q' => (carve s.cells p d n q').card) + 2 =
      2 * (insert n s.visited).card
    rw [hsum, Finset.card_insert_of_not_mem hnv]
    have := inv.count
    omega
  · -- conn
    have hmono : ∀ a b : Pos, Relation.ReflTransGen (openStep s.cells) a b →
        Relation.ReflTransGen (openStep (carve s.cells p d n)) a b := by
      intro a b h
      induction h with
      | refl => exact Relation.ReflTransGen.refl
      | tail hab hbc ih =>
        obtain ⟨d', hd', hs'⟩ := hbc
        exact Relation.ReflTransGen.tail ih ⟨d', hsup _ hd', hs'⟩
    intro q' hq'
    rcases Finset.mem_insert.mp hq' with rfl | hq'
    · refine Relation.ReflTransGen.tail (hmono _ _ (inv.conn p hpv)) ?_
      exact ⟨d, (hmem_carve p d).mpr (Or.inr (Or.inl ⟨hpn, rfl, Or.inl rfl⟩)), hn.symm⟩
    · exact hmono _ _ (inv.conn q' hq')
  · -- done
    intro q' hq'
    rcases Finset.mem_insert.mp hq' with rfl | hq'
    · exact Or.inl (List.mem_cons_self _ _)
    · rcases inv.done q' hq' with hmem | hcl
      · left
        rw [hst] at hmem
        exact List.mem_cons_of_mem _ hmem
      · exact Or.inr (fun d' hb' => Finset.mem_insert_of_mem (hcl d' hb'))
  · -- tree
    obtain ⟨par, rank, hbound, hedge⟩ := inv.tree
    have hrk : ∀ v ∈ s.visited, Function.update rank n (s.k + 1) v = rank v := fun v hv =>
      Function.update_noteq (fun h => hnv (by rw [← h]; exact hv)) _ _
    have hpar : ∀ v ∈ s.visited, Function.update par n p v = par v := fun v hv =>
      Function.update_noteq (fun h => hnv (by rw [← h]; exact hv)) _ _
    refine ⟨Function.update par n p, Function.update rank n (s.k + 1), ?_, ?_⟩
    · intro v hv
      rcases Finset.mem_insert.mp hv with rfl | hv
      · rw [Function.update_same]
      · rw [hrk v hv]
        exact le_trans (hbound v hv) (Nat.le_succ _)
    · intro q' d' hd'
      rcases (hmem_carve q' d').mp hd' with ⟨rfl, hcase⟩ | ⟨h1, rfl, hcase⟩ | ⟨h1, h2, hold⟩
      · rcases hcase with rfl | hold
        · rw [hopp_step]
          left
          refine ⟨Function.update_same _ _ _, ?_⟩
          rw [Function.update_same, hrk p hpv]
          exact Nat.lt_succ_of_le (hbound p hpv)
        · exact absurd hold (hcellsn d')
      · rcases hcase with rfl | hold
        · rw [← hn]
          right
          refine ⟨Function.update_same _ _ _, ?_⟩
          rw [Function.update_same, hrk q' hpv]
          exact Nat.lt_succ_of_le (hbound q' hpv)
        · have hv1 : q' ∈ s.visited := hpv
          have hv2 : dstep d' q' ∈ s.visited := (inv.edgev q' d' hold).2
          rcases hedge q' d' hold with ⟨ha, hb'⟩ | ⟨ha, hb'⟩
          · left
            rw [hpar q' hv1, hrk _ hv2, hrk q' hv1]
            exact ⟨ha, hb'⟩
          · right
            rw [hpar _ hv2, hrk q' hv1, hrk _ hv2]
            exact ⟨ha, hb'⟩
      · have hv1 : q' ∈ s.visited := (inv.edgev q' d' hold).1
        have hv2 : dstep d' q' ∈ s.visited := (inv.edgev q' d' hold).2
        rcases hedge q' d' hold with ⟨ha, hb'⟩ | ⟨ha, hb'⟩
        · left
          rw [hpar q' hv1, hrk _ hv2, hrk q' hv1]
          exact ⟨ha, hb'⟩
        · right
          rw [hpar _ hv2, hrk q' hv1, hrk _ hv2]
          exact ⟨ha, hb'⟩

lemma genInv_pop {cols rows : ℕ} {s : GenState} (inv : GenInv cols rows s)
    {p : Pos} {rest : List Pos} (hst : s.stack = p :: rest)
    (hnb : unvisitedNeighbors cols rows s.visited p = []) :
    GenInv cols rows { s with stack := rest } := by
  refine ⟨inv.vbox, inv.startv, ?_, inv.sym, inv.edgev, inv.count, inv.conn, ?_, inv.tree⟩
  · intro q hq
    refine inv.stackv q ?_
    rw [hst]
    exact List.mem_cons_of_mem _ hq
  · intro v hv
    rcases inv.done v hv with hmem | hcl
    · rw [hst] at hmem
      rcases List.mem_cons.mp hmem with rfl | hmem'
      · exact Or.inr (fun d hb => unvisitedNeighbors_nil.mp hnb d hb)
      · exact Or.inl hmem'
    · exact Or.inr hcl

lemma genStep_cases (cols rows : ℕ) (rng : ℕ → ℕ) (s : GenState) {p : Pos}
    {rest : List Pos} (hst : s.stack = p :: rest) :
    (unvisitedNeighbors cols rows s.visited p = [] ∧
      genStep cols rows rng s = { s with stack := rest }) ∨
    (∃ d n, (d, n) ∈ unvisitedNeighbors cols rows s.visited p ∧
      genStep cols rows rng s =
        { cells := carve s.cells p d n, visited := insert n s.visited,
          stack := n :: p :: rest, k := s.k + 1 }) := by
  rcases hnb : unvisitedNeighbors cols rows s.visited p with _ | ⟨q, qs⟩
  · left
    refine ⟨rfl, ?_⟩
    simp only [genStep, hst, hnb]
  · right
    refine ⟨((q :: qs).get ⟨rng s.k % (q :: qs).length, Nat.mod_lt _ (Nat.succ_pos _)⟩).1,
      ((q :: qs).get ⟨rng s.k % (q :: qs).length, Nat.mod_lt _ (Nat.succ_pos _)⟩).2,
      ?_, ?_⟩
    · exact List.get_mem _ _ _
    · simp only [genStep, hst, hnb]

lemma genLoop_master (cols rows : ℕ) (rng : ℕ → ℕ) :
    ∀ (fuel : ℕ) (s : GenState), GenInv cols rows s →
      2 * (cols * rows) + s.stack.length ≤ fuel + 2 * s.visited.card →
      GenInv cols rows (genLoop cols rows rng fuel s) ∧
        (genLoop cols rows rng fuel s).stack = [] := by
  intro fuel
  induction fuel with
  | zero =>
    intro s inv hm
    have hcard : s.visited.card ≤ cols * rows := by
      calc s.visited.card ≤ (cellBox cols rows).card := Finset.card_le_card inv.vbox
        _ = cols * rows := card_cellBox cols rows
    have hs : s.stack = [] := List.length_eq_zero.mp (by omega)
    exact ⟨inv, hs⟩
  | succ fuel ih =>
    intro s inv hm
    rcases hst : s.stack with _ | ⟨p, rest⟩
    · constructor
      · simpa only [genLoop, hst] using inv
      · simp [genLoop, hst]
    · have hred : genLoop cols rows rng (fuel + 1) s =
          genLoop cols rows rng fuel (genStep cols rows rng s) := by
        simp only [genLoop, hst]
      have hlen : s.stack.length = rest.length + 1 := by rw [hst]; rfl
      rcases genStep_cases cols rows rng s hst with ⟨hnb, heq⟩ | ⟨d, n, hmem, heq⟩
      · have inv' := genInv_pop inv hst hnb
        rw [hred, heq]
        apply ih _ inv'
        simp only [List.length_cons]
        omega
      · obtain ⟨hn, hb, hnv⟩ := mem_unvisitedNeighbors.mp hmem
        have inv' := genInv_carve inv hst hn hb hnv
        rw [hred, heq]
        apply ih _ inv'
        have hcard : (insert n s.visited).card = s.visited.card + 1 :=
          Finset.card_insert_of_not_mem hnv
        simp only [List.length_cons, hcard]
        omega

lemma maze_final (cols rows : ℕ) (hc : 1 ≤ cols) (hr : 1 ≤ rows) (rng : ℕ → ℕ) :
    GenInv cols rows (genLoop cols rows rng (genFuel cols rows) initGenState) ∧
      (genLoop cols rows rng (genFuel cols rows) initGenState).stack = [] := by
  apply genLoop_master cols rows rng (genFuel cols rows) initGenState
    (genInv_init cols rows hc hr)
  simp only [genFuel, initGenState, List.length_singleton, Finset.card_singleton]
  omega

lemma visited_full {cols rows : ℕ} {s : GenState} (inv : GenInv cols rows s)
    (hstk : s.stack = []) (hr : 1 ≤ rows) :
    s.visited = cellBox cols rows := by
  apply Finset.Subset.antisymm inv.vbox
  have hcl : ∀ v ∈ s.visited, ∀ d, inBoundsCell cols rows (dstep d v) →
      dstep d v ∈ s.visited := by
    intro v hv d hb
    rcases inv.done v hv with hmem | h
    · rw [hstk] at hmem
      cases hmem
    · exact h d hb
  have hrow : ∀ a : ℕ, a < cols → (((a : ℤ), (0 : ℤ)) : Pos) ∈ s.visited := by
    intro a
    induction a with
    | zero => intro _; exact_mod_cast inv.startv
    | succ a iha =>
      intro ha
      have h1 := iha (by omega)
      have h2 := hcl _ h1 Dir.E (by
        simp [dstep, dvec, inBoundsCell]; omega)
      have h3 : dstep Dir.E (((a : ℤ), (0 : ℤ)) : Pos) =
          ((((a + 1 : ℕ) : ℤ)), (0 : ℤ)) := by
        simp [dstep, dvec, Prod.ext_iff]
      rw [h3] at h2
      exact h2
  have hcol : ∀ a : ℕ, a < cols → ∀ b : ℕ, b < rows →
      (((a : ℤ), (b : ℤ)) : Pos) ∈ s.visited := by
    intro a ha b
    induction b with
    | zero => intro _; exact hrow a ha
    | succ b ihb =>
      intro hb
      have h1 := ihb (by omega)
      have h2 := hcl _ h1 Dir.S (by
        simp [dstep, dvec, inBoundsCell]; omega)
      have h3 : dstep Dir.S (((a : ℤ), (b : ℤ)) : Pos) =
          (((a : ℤ)), (((b + 1 : ℕ) : ℤ))) := by
        simp [dstep, dvec, Prod.ext_iff]
      rw [h3] at h2
      exact h2
  intro p hp
  obtain ⟨hx0, hxc, hy0, hyr⟩ := mem_cellBox.mp hp
  have h1 := hcol p.1.toNat (by omega) p.2.toNat (by omega)
  have h2 : (((p.1.toNat : ℤ), (p.2.toNat : ℤ)) : Pos) = p := by
    rw [Int.toNat_of_nonneg hx0, Int.toNat_of_nonneg hy0]
  rw [h2] at h1
  exact h1

/-! ## The cell graph of a maze -/

/-- Cell coordinates of a vertex of the finite cell graph. -/
def ιV {cols rows : ℕ} (v : Fin cols × Fin rows) : Pos := ((v.1 : ℤ), (v.2 : ℤ))

/-- The vertex corresponding to an in-bounds coordinate pair. -/
def toV {cols rows : ℕ} (p : Pos) (h : inBoundsCell cols rows p) :
    Fin cols × Fin rows :=
  (⟨p.1.toNat, by obtain ⟨h1, h2, h3, h4⟩ := h; omega⟩,
   ⟨p.2.toNat, by obtain ⟨h1, h2, h3, h4⟩ := h; omega⟩)

lemma ιV_toV {cols rows : ℕ} {p : Pos} (h : inBoundsCell cols rows p) :
    ιV (toV p h) = p := by
  obtain ⟨h1, h2, h3, h4⟩ := h
  simp [ιV, toV, Int.toNat_of_nonneg h1, Int.toNat_of_nonneg h3]

lemma ιV_inBounds {cols rows : ℕ} (v : Fin cols × Fin rows) :
    inBoundsCell cols rows (ιV v) := by
  obtain ⟨⟨a, ha⟩, ⟨b, hb⟩⟩ := v
  simp only [ιV, inBoundsCell]
  refine ⟨by positivity, ?_, by positivity, ?_⟩ <;> exact_mod_cast (by assumption)

lemma ιV_inj {cols rows : ℕ} {u v : Fin cols × Fin rows} (h : ιV u = ιV v) :
    u = v := by
  obtain ⟨⟨a, ha⟩, ⟨b, hb⟩⟩ := u
  obtain ⟨⟨a', ha'⟩, ⟨b', hb'⟩⟩ := v
  simp only [ιV, Prod.ext_iff, Fin.ext_iff] at h ⊢
  exact ⟨by exact_mod_cast h.1, by exact_mod_cast h.2⟩

lemma toV_ιV {cols rows : ℕ} (v : Fin cols × Fin rows)
    (h : inBoundsCell cols rows (ιV v)) : toV (ιV v) h = v :=
  ιV_inj (ιV_toV h)

/-- The cell graph: two cells are adjacent when either records an open
direction leading to the other.  (For the generated maze the two directions
agree by symmetry.) -/
def mazeGraph (cols rows : ℕ) (cells : Pos → Finset Dir) :
    SimpleGraph (Fin cols × Fin rows) where
  Adj u v := openStep cells (ιV u) (ιV v) ∨ openStep cells (ιV v) (ιV u)
  symm := fun u v h => Or.symm h
  loopless := fun u h => by
    rcases h with ⟨d, -, hd⟩ | ⟨d, -, hd⟩ <;> exact dstep_ne d _ hd

instance (cols rows : ℕ) (cells : Pos → Finset Dir) :
    DecidableRel (mazeGraph cols rows cells).Adj := fun u v =>
  inferInstanceAs
    (Decidable (openStep cells (ιV u) (ιV v) ∨ openStep cells (ιV v) (ιV u)))

/-! ## Acyclicity from a parent pointer with decreasing rank -/

lemma walk_support_getElem {W : Type} {G : SimpleGraph W} {u v : W} :
    ∀ (p : G.Walk u v) (i : ℕ), i ≤ p.length → p.support[i]? = some (p.getVert i) := by
  intro p
  induction p with
  | nil =>
    intro i hi
    obtain rfl : i = 0 := Nat.le_zero.mp hi
    rfl
  | cons h q ih =>
    intro i hi
    cases i with
    | zero => simp [SimpleGraph.Walk.support_cons]
    | succ i =>
      have := ih i (by simpa [SimpleGraph.Walk.length_cons] using hi)
      simpa [SimpleGraph.Walk.support_cons] using this

lemma walk_tail_getElem {W : Type} {G : SimpleGraph W} {v : W} (c : G.Walk v v)
    (i : ℕ) (hi : i + 1 ≤ c.length) :
    c.support.tail[i]? = some (c.getVert (i + 1)) := by
  have h1 := walk_support_getElem c (i + 1) hi
  rw [SimpleGraph.Walk.support_eq_cons] at h1
  simpa using h1

lemma getVert_inj_on {W : Type} {G : SimpleGraph W} {v : W} {c : G.Walk v v}
    (hc : c.IsCycle) {i j : ℕ} (hi1 : 1 ≤ i) (hin : i ≤ c.length) (hj1 : 1 ≤ j)
    (hjn : j ≤ c.length) (heq : c.getVert i = c.getVert j) : i = j := by
  have hnd : c.support.tail.Nodup := hc.support_nodup
  have htl : c.support.tail.length = c.length := by
    have := SimpleGraph.Walk.length_support c
    simp [List.length_tail, this]
  obtain ⟨i', rfl⟩ : ∃ i', i = i' + 1 := ⟨i - 1, by omega⟩
  obtain ⟨j', rfl⟩ : ∃ j', j = j' + 1 := ⟨j - 1, by omega⟩
  have e1 := walk_tail_getElem c i' hin
  have e2 := walk_tail_getElem c j' hjn
  have hmm : c.support.tail[i']? = c.support.tail[j']? := by rw [e1, e2, heq]
  have h0 : i' < c.support.tail.length := by rw [htl]; omega
  have := List.getElem?_inj h0 hnd hmm
  omega

/-- A graph in which every edge joins a vertex to its unique parent, with
the parent of strictly smaller rank, has no cycles: the maximum-rank vertex
of a cycle would have two distinct neighbors both equal to its parent. -/
lemma isAcyclic_of_parent {W : Type} (G : SimpleGraph W) (pr : W → W)
    (rk : W → ℕ)
    (h : ∀ u v, G.Adj u v → (pr u = v ∧ rk v < rk u) ∨ (pr v = u ∧ rk u < rk v)) :
    G.IsAcyclic := by
  intro v c hc
  have hn3 := hc.three_le_length
  obtain ⟨i₀, hi₀, hmax⟩ := Finset.exists_max_image (Finset.Icc 1 c.length)
    (fun i => rk (c.getVert i)) ⟨1, Finset.mem_Icc.mpr ⟨le_refl _, by omega⟩⟩
  rw [Finset.mem_Icc] at hi₀
  obtain ⟨hi1, hin⟩ := hi₀
  have hmax' : ∀ j, 1 ≤ j → j ≤ c.length → rk (c.getVert j) ≤ rk (c.getVert i₀) :=
    fun j h1 h2 => hmax j (Finset.mem_Icc.mpr ⟨h1, h2⟩)
  have hj₂b : 1 ≤ (if i₀ = c.length then 1 else i₀ + 1) ∧
      (if i₀ = c.length then 1 else i₀ + 1) ≤ c.length := by
    split_ifs <;> omega
  have hj₁b : 1 ≤ (if i₀ = 1 then c.length else i₀ - 1) ∧
      (if i₀ = 1 then c.length else i₀ - 1) ≤ c.length := by
    split_ifs <;> omega
  have hne : (if i₀ = 1 then c.length else i₀ - 1) ≠
      (if i₀ = c.length then 1 else i₀ + 1) := by
    split_ifs <;> omega
  have hadj₂ : G.Adj (c.getVert i₀) (c.getVert (if i₀ = c.length then 1 else i₀ + 1)) := by
    split_ifs with hcase
    · rw [hcase, SimpleGraph.Walk.getVert_length]
      have h01 := SimpleGraph.Walk.adj_getVert_succ c (show 0 < c.length by omega)
      rwa [SimpleGraph.Walk.getVert_zero] at h01
    · exact SimpleGraph.Walk.adj_getVert_succ c (by omega)
  have hadj₁ : G.Adj (c.getVert (if i₀ = 1 then c.length else i₀ - 1)) (c.getVert i₀) := by
    split_ifs with hcase
    · rw [SimpleGraph.Walk.getVert_length, hcase]
      have h01 := SimpleGraph.Walk.adj_getVert_succ c (show 0 < c.length by omega)
      rwa [SimpleGraph.Walk.getVert_zero] at h01
    · have := SimpleGraph.Walk.adj_getVert_succ c (show i₀ - 1 < c.length by omega)
      rwa [Nat.sub_add_cancel hi1] at this
  rcases h _ _ hadj₂ with ⟨hp2, -⟩ | ⟨-, hlt⟩
  swap
  · have := hmax' _ hj₂b.1 hj₂b.2
    omega
  rcases h _ _ hadj₁.symm with ⟨hp1, -⟩ | ⟨-, hlt⟩
  swap
  · have := hmax' _ hj₁b.1 hj₁b.2
    omega
  exact hne (getVert_inj_on hc hj₁b.1 hj₁b.2 hj₂b.1 hj₂b.2 (by rw [← hp1, ← hp2]))

lemma mazeGraph_connected {cols rows : ℕ} {cells : Pos → Finset Dir}
    (hc : 1 ≤ cols) (hr : 1 ≤ rows)
    (hedge : ∀ p d, d ∈ cells p →
      inBoundsCell cols rows p ∧ inBoundsCell cols rows (dstep d p))
    (hconn : ∀ v : Fin cols × Fin rows,
      Relation.ReflTransGen (openStep cells) (0, 0) (ιV v)) :
    (mazeGraph cols rows cells).Connected := by
  have hroot : inBoundsCell cols rows ((0, 0) : Pos) :=
    ⟨le_refl _, by show (0 : ℤ) < (cols : ℤ); exact_mod_cast hc,
     le_refl _, by show (0 : ℤ) < (rows : ℤ); exact_mod_cast hr⟩
  have hlift : ∀ (a b : Pos), Relation.ReflTransGen (openStep cells) a b →
      ∀ (ha : inBoundsCell cols rows a) (hb : inBoundsCell cols rows b),
      (mazeGraph cols rows cells).Reachable (toV a ha) (toV b hb) := by
    intro a b h
    induction h with
    | refl => intro ha hb; exact SimpleGraph.Reachable.refl _
    | tail hab hbc ih =>
      intro ha hb
      obtain ⟨d, hd, hs⟩ := hbc
      have hbmid := (hedge _ _ hd).1
      refine SimpleGraph.Reachable.trans (ih ha hbmid)
        (SimpleGraph.Adj.reachable ?_)
      left
      refine ⟨d, ?_, ?_⟩
      · rw [ιV_toV]
        exact hd
      · rw [ιV_toV, ιV_toV]
        exact hs
  rw [SimpleGraph.connected_iff]
  refine ⟨?_, ⟨(⟨0, hc⟩, ⟨0, hr⟩)⟩⟩
  intro u v
  have h1 := hlift _ _ (hconn u) hroot (ιV_inBounds u)
  have h2 := hlift _ _ (hconn v) hroot (ιV_inBounds v)
  rw [toV_ιV] at h1 h2
  exact h1.symm.trans h2

lemma mazeGraph_degree {cols rows : ℕ} {cells : Pos → Finset Dir}
    (hsym : ∀ p d, d ∈ cells p → OPPOSITE d ∈ cells (dstep d p))
    (hedge : ∀ p d, d ∈ cells p →
      inBoundsCell cols rows p ∧ inBoundsCell cols rows (dstep d p))
    (v : Fin cols × Fin rows) :
    (mazeGraph cols rows cells).degree v = (cells (ιV v)).card := by
  rw [← SimpleGraph.card_neighborFinset_eq_degree]
  symm
  apply Finset.card_bij (fun d hd => toV (dstep d (ιV v)) (hedge _ _ hd).2)
  · intro d hd
    rw [SimpleGraph.mem_neighborFinset]
    left
    exact ⟨d, hd, (ιV_toV _).symm⟩
  · intro d1 h1 d2 h2 heq
    have h3 := congrArg ιV heq
    rw [ιV_toV, ιV_toV] at h3
    exact dstep_inj_dir h3
  · intro w hw
    rw [SimpleGraph.mem_neighborFinset] at hw
    rcases hw with ⟨d, hd, hs⟩ | ⟨d, hd, hs⟩
    · refine ⟨d, hd, ?_⟩
      apply ιV_inj
      rw [ιV_toV, hs]
    · have hd' : OPPOSITE d ∈ cells (ιV v) := by
        have h4 := hsym _ _ hd
        rwa [hs] at h4
      refine ⟨OPPOSITE d, hd', ?_⟩
      apply ιV_inj
      rw [ιV_toV, ← hs, dstep_opp]

lemma sum_box_cells {cols rows : ℕ} (cells : Pos → Finset Dir) :
    ∑ v : Fin cols × Fin rows, (cells (ιV v)).card =
      (cellBox cols rows).sum (fun p => (cells p).card) := by
  apply Finset.sum_bij (fun (v : Fin cols × Fin rows) _ => ιV v)
  · intro v _
    exact mem_cellBox.mpr (ιV_inBounds v)
  · intro a _ b _ h
    exact ιV_inj h
  · intro p hp
    exact ⟨toV p (mem_cellBox.mp hp), Finset.mem_univ _, ιV_toV _⟩
  · intro v _
    rfl

/-! ## C2: the generated maze is a symmetric spanning tree -/

/-- C2: for all dimensions at least 1 and any random stream, the generated
open-direction relation is symmetric, and the cell graph it induces is a
tree (connected and acyclic) with exactly `cols * rows - 1` edges: a
spanning tree over all cells. -/
theorem c2_spanning_tree (cols rows : ℕ) (hc : 1 ≤ cols) (hr : 1 ≤ rows)
    (rng : ℕ → ℕ) :
    (∀ p d, d ∈ mazeCells cols rows rng p →
      OPPOSITE d ∈ mazeCells cols rows rng (dstep d p)) ∧
    (mazeGraph cols rows (mazeCells cols rows rng)).IsTree ∧
    (mazeGraph cols rows (mazeCells cols rows rng)).edgeFinset.card =
      cols * rows - 1 := by
  obtain ⟨inv, hstk⟩ := maze_final cols rows hc hr rng
  have hfull := visited_full inv hstk hr
  have hedge : ∀ p d, d ∈ mazeCells cols rows rng p →
      inBoundsCell cols rows p ∧ inBoundsCell cols rows (dstep d p) := by
    intro p d hd
    obtain ⟨h1, h2⟩ := inv.edgev p d hd
    exact ⟨mem_cellBox.mp (inv.vbox h1), mem_cellBox.mp (inv.vbox h2)⟩
  have hconnv : ∀ v : Fin cols × Fin rows,
      Relation.ReflTransGen (openStep (mazeCells cols rows rng)) (0, 0) (ιV v) := by
    intro v
    apply inv.conn
    rw [hfull]
    exact mem_cellBox.mpr (ιV_inBounds v)
  refine ⟨inv.sym, ⟨mazeGraph_connected hc hr hedge hconnv, ?_⟩, ?_⟩
  · obtain ⟨par, rank, -, hedge'⟩ := inv.tree
    apply isAcyclic_of_parent _
      (fun v => if h : inBoundsCell cols rows (par (ιV v)) then toV (par (ιV v)) h
        else v)
      (fun v => rank (ιV v))
    intro u v huv
    rcases huv with ⟨d, hd, hs'⟩ | ⟨d, hd, hs'⟩
    · rcases hedge' _ _ hd with ⟨ha, hb⟩ | ⟨ha, hb⟩
      · left
        rw [hs'] at ha hb
        refine ⟨?_, hb⟩
        rw [ha, dif_pos (ha ▸ ιV_inBounds v)]
        exact toV_ιV v _
      · right
        rw [hs'] at ha hb
        refine ⟨?_, hb⟩
        rw [ha, dif_pos (ha ▸ ιV_inBounds u)]
        exact toV_ιV u _
    · rcases hedge' _ _ hd with ⟨ha, hb⟩ | ⟨ha, hb⟩
      · right
        rw [hs'] at ha hb
        refine ⟨?_, hb⟩
        rw [ha, dif_pos (ha ▸ ιV_inBounds u)]
        exact toV_ιV u _
      · left
        rw [hs'] at ha hb
        refine ⟨?_, hb⟩
        rw [ha, dif_pos (ha ▸ ιV_inBounds v)]
        exact toV_ιV v _
  · have hdeg := SimpleGraph.sum_degrees_eq_twice_card_edges
      (mazeGraph cols rows (mazeCells cols rows rng))
    have hdeg2 : ∑ v : Fin cols × Fin rows,
        (mazeGraph cols rows (mazeCells cols rows rng)).degree v =
        ∑ v : Fin cols × Fin rows, ((mazeCells cols rows rng) (ιV v)).card :=
      Finset.sum_congr rfl (fun v _ => mazeGraph_degree inv.sym hedge v)
    have hsum3 := @sum_box_cells cols rows (mazeCells cols rows rng)
    have hcount := inv.count
    have hvc : (genLoop cols rows rng (genFuel cols rows) initGenState).visited.card =
        cols * rows := by
      rw [hfull, card_cellBox]
    rw [hvc] at hcount
    have hcells_eq : (fun p => ((genLoop cols rows rng (genFuel cols rows)
        initGenState).cells p).card) = fun p => ((mazeCells cols rows rng) p).card := rfl
    rw [hcells_eq] at hcount
    rw [hdeg2, hsum3] at hdeg
    set N := cols * rows with hN
    omega

theorem c2_witness :
    (1 ≤ 1) ∧ (1 ≤ 1) ∧
    ((∀ p d, d ∈ mazeCells 1 1 (fun _ => 0) p →
      OPPOSITE d ∈ mazeCells 1 1 (fun _ => 0) (dstep d p)) ∧
    (mazeGraph 1 1 (mazeCells 1 1 (fun _ => 0))).IsTree ∧
    (mazeGraph 1 1 (mazeCells 1 1 (fun _ => 0))).edgeFinset.card = 1 * 1 - 1) :=
  ⟨by decide, by decide, c2_spanning_tree 1 1 (by decide) (by decide) (fun _ => 0)⟩

/-! ## C4: the display grid of a generated maze is always solvable -/

lemma toGrid_passage_cell {cols rows : ℕ} {cells : Pos → Finset Dir} {p : Pos}
    (h : inBoundsCell cols rows p) :
    toGridFun cells cols rows (2 * p.1 + 1, 2 * p.2 + 1) = ' ' := by
  obtain ⟨h1, h2, h3, h4⟩ := h
  rw [toGridFun_eq, if_pos]
  refine ⟨p.2.toNat, by omega, p.1.toNat, by omega, Or.inl ?_⟩
  rw [Int.toNat_of_nonneg h1, Int.toNat_of_nonneg h3]

lemma toGrid_passage_east {cols rows : ℕ} {cells : Pos → Finset Dir} {p : Pos}
    (h : inBoundsCell cols rows p) (hE : Dir.E ∈ cells p) :
    toGridFun cells cols rows (2 * p.1 + 1 + 1, 2 * p.2 + 1) = ' ' := by
  obtain ⟨h1, h2, h3, h4⟩ := h
  rw [toGridFun_eq, if_pos]
  refine ⟨p.2.toNat, by omega, p.1.toNat, by omega, Or.inr (Or.inl ⟨?_, ?_⟩)⟩
  · rw [Int.toNat_of_nonneg h1, Int.toNat_of_nonneg h3]
    exact (Prod.mk.eta ▸ hE)
  · rw [Int.toNat_of_nonneg h1, Int.toNat_of_nonneg h3]

lemma toGrid_passage_south {cols rows : ℕ} {cells : Pos → Finset Dir} {p : Pos}
    (h : inBoundsCell cols rows p) (hS : Dir.S ∈ cells p) :
    toGridFun cells cols rows (2 * p.1 + 1, 2 * p.2 + 1 + 1) = ' ' := by
  obtain ⟨h1, h2, h3, h4⟩ := h
  rw [toGridFun_eq, if_pos]
  refine ⟨p.2.toNat, by omega, p.1.toNat, by omega, Or.inr (Or.inr ⟨?_, ?_⟩)⟩
  · rw [Int.toNat_of_nonneg h1, Int.toNat_of_nonneg h3]
    exact (Prod.mk.eta ▸ hS)
  · rw [Int.toNat_of_nonneg h1, Int.toNat_of_nonneg h3]

lemma dvec_mem_NBR (d : Dir) : dvec d ∈ NBR_STEPS := by
  cases d <;> simp [dvec, NBR_STEPS]

lemma reach_passage_path {cols rows : ℕ} {cells : Pos → Finset Dir}
    (hsym : ∀ p d, d ∈ cells p → OPPOSITE d ∈ cells (dstep d p))
    (hedge : ∀ p d, d ∈ cells p →
      inBoundsCell cols rows p ∧ inBoundsCell cols rows (dstep d p))
    (hc : 1 ≤ cols) (hr : 1 ≤ rows) :
    ∀ {q : Pos}, Relation.ReflTransGen (openStep cells) (0, 0) q →
      ∃ l, PassagePath (Maze.to_grid cols rows cells) (1, 1)
        (2 * q.1 + 1, 2 * q.2 + 1) l := by
  have hroot : inBoundsCell cols rows ((0, 0) : Pos) :=
    ⟨le_refl _, by show (0 : ℤ) < (cols : ℤ); exact_mod_cast hc,
     le_refl _, by show (0 : ℤ) < (rows : ℤ); exact_mod_cast hr⟩
  intro q h
  induction h with
  | refl =>
    refine ⟨[(1, 1)], rfl, rfl, List.chain'_singleton _, ?_⟩
    intro x hx
    rw [List.mem_singleton] at hx
    subst hx
    constructor
    · refine ⟨by norm_num, ?_, by norm_num, ?_⟩ <;>
        · show (1 : ℤ) < ((2 * _ + 1 : ℕ) : ℤ)
          push_cast
          omega
    · have h0 : toGridFun cells cols rows (2 * (0 : ℤ) + 1, 2 * (0 : ℤ) + 1) = ' ' :=
        toGrid_passage_cell hroot
      simpa using h0
  | @tail b c hab hbc ih =>
    obtain ⟨l, hlh, hll, hlc, hlm⟩ := ih
    obtain ⟨d, hd, hs⟩ := hbc
    obtain ⟨hbB, hcB'⟩ := hedge _ _ hd
    have hcB : inBoundsCell cols rows c := hs ▸ hcB'
    have hcb : c = (b.1 + (dvec d).1, b.2 + (dvec d).2) := by
      rw [← hs]
      rfl
    have hmid_eq : ((2 * b.1 + 1 + (dvec d).1, 2 * b.2 + 1 + (dvec d).2) : Pos) =
        (b.1 + c.1 + 1, b.2 + c.2 + 1) := by
      rw [hcb]
      cases d <;> (simp only [dvec, Prod.ext_iff, Prod.fst, Prod.snd] ; constructor <;> ring)
    have hgc_eq : ((2 * c.1 + 1, 2 * c.2 + 1) : Pos) =
        ((2 * b.1 + 1 + (dvec d).1) + (dvec d).1, (2 * b.2 + 1 + (dvec d).2) + (dvec d).2) := by
      rw [hcb]
      cases d <;> (simp only [dvec, Prod.ext_iff, Prod.fst, Prod.snd] ; constructor <;> ring)
    have hmid_pass : toGridFun cells cols rows
        (2 * b.1 + 1 + (dvec d).1, 2 * b.2 + 1 + (dvec d).2) = ' ' := by
      cases d with
      | E =>
        have h6 := toGrid_passage_east hbB hd
        have h7 : ((2 * b.1 + 1 + 1, 2 * b.2 + 1) : Pos) =
            (2 * b.1 + 1 + (dvec Dir.E).1, 2 * b.2 + 1 + (dvec Dir.E).2) := by
          simp [dvec]
        rwa [h7] at h6
      | S =>
        have h6 := toGrid_passage_south hbB hd
        have h7 : ((2 * b.1 + 1, 2 * b.2 + 1 + 1) : Pos) =
            (2 * b.1 + 1 + (dvec Dir.S).1, 2 * b.2 + 1 + (dvec Dir.S).2) := by
          simp [dvec]
        rwa [h7] at h6
      | W =>
        have hE : Dir.E ∈ cells c := by
          have h5 := hsym _ _ hd
          rwa [hs] at h5
        have h6 := toGrid_passage_east hcB hE
        have h7 : ((2 * c.1 + 1 + 1, 2 * c.2 + 1) : Pos) =
            (2 * b.1 + 1 + (dvec Dir.W).1, 2 * b.2 + 1 + (dvec Dir.W).2) := by
          rw [hcb]
          simp only [dvec, Prod.ext_iff, Prod.fst, Prod.snd]
          constructor <;> ring
        rwa [h7] at h6
      | N =>
        have hS : Dir.S ∈ cells c := by
          have h5 := hsym _ _ hd
          rwa [hs] at h5
        have h6 := toGrid_passage_south hcB hS
        have h7 : ((2 * c.1 + 1, 2 * c.2 + 1 + 1) : Pos) =
            (2 * b.1 + 1 + (dvec Dir.N).1, 2 * b.2 + 1 + (dvec Dir.N).2) := by
          rw [hcb]
          simp only [dvec, Prod.ext_iff, Prod.fst, Prod.snd]
          constructor <;> ring
        rwa [h7] at h6
    have hmid_in : inGrid (Maze.to_grid cols rows cells)
        (2 * b.1 + 1 + (dvec d).1, 2 * b.2 + 1 + (dvec d).2) := by
      rw [hmid_eq]
      obtain ⟨hb1, hb2, hb3, hb4⟩ := hbB
      obtain ⟨hc1, hc2, hc3, hc4⟩ := hcB
      refine ⟨by omega, ?_, by omega, ?_⟩ <;>
        · show _ < ((2 * _ + 1 : ℕ) : ℤ)
          push_cast
          omega
    have hgc_in : inGrid (Maze.to_grid cols rows cells) (2 * c.1 + 1, 2 * c.2 + 1) := by
      obtain ⟨hc1, hc2, hc3, hc4⟩ := hcB
      refine ⟨by omega, ?_, by omega, ?_⟩ <;>
        · show _ < ((2 * _ + 1 : ℕ) : ℤ)
          push_cast
          omega
    have hgc_pass : toGridFun cells cols rows (2 * c.1 + 1, 2 * c.2 + 1) = ' ' :=
      toGrid_passage_cell hcB
    refine ⟨(l ++ [(2 * b.1 + 1 + (dvec d).1, 2 * b.2 + 1 + (dvec d).2)]) ++
      [(2 * c.1 + 1, 2 * c.2 + 1)], ?_, ?_, ?_, ?_⟩
    · cases l with
      | nil => cases hlh
      | cons a t =>
        have h9 : some a = some ((1, 1) : Pos) := hlh
        rw [Option.some.inj h9]
        rfl
    · rw [List.getLast?_concat]
    · rw [List.chain'_append]
      refine ⟨?_, List.chain'_singleton _, ?_⟩
      · rw [List.chain'_append]
        refine ⟨hlc, List.chain'_singleton _, ?_⟩
        intro x hx y hy
        rw [hll] at hx
        rw [Option.mem_def] at hx hy
        injection hx with hx
        injection hy with hy
        subst hx
        subst hy
        exact ⟨dvec d, dvec_mem_NBR d, rfl⟩
      · intro x hx y hy
        rw [List.getLast?_concat] at hx
        rw [Option.mem_def] at hx hy
        injection hx with hx
        injection hy with hy
        subst hx
        subst hy
        exact ⟨dvec d, dvec_mem_NBR d, hgc_eq⟩
    · intro x hx
      rcases List.mem_append.mp hx with hx | hx
      · rcases List.mem_append.mp hx with hx | hx
        · exact hlm x hx
        · rw [List.mem_singleton] at hx
          subst hx
          exact ⟨hmid_in, hmid_pass⟩
      · rw [List.mem_singleton] at hx
        subst hx
        exact ⟨hgc_in, hgc_pass⟩

/-- C4: for every maze size at least 1×1 and every random stream, the BFS
solver on the derived display grid returns a non-empty path between the two
positions of `start_end_positions`. -/
theorem c4_solver_nonempty (cols rows : ℕ) (hc : 1 ≤ cols) (hr : 1 ≤ rows)
    (rng : ℕ → ℕ) :
    bfs_shortest_path (Maze.to_grid cols rows (mazeCells cols rows rng))
      (start_end_positions cols rows).1 (start_end_positions cols rows).2 ≠ [] := by
  obtain ⟨inv, hstk⟩ := maze_final cols rows hc hr rng
  have hfull := visited_full inv hstk hr
  have hedge : ∀ p d, d ∈ mazeCells cols rows rng p →
      inBoundsCell cols rows p ∧ inBoundsCell cols rows (dstep d p) := by
    intro p d hd
    obtain ⟨h1, h2⟩ := inv.edgev p d hd
    exact ⟨mem_cellBox.mp (inv.vbox h1), mem_cellBox.mp (inv.vbox h2)⟩
  have hq : (((cols : ℤ) - 1, (rows : ℤ) - 1) : Pos) ∈
      (genLoop cols rows rng (genFuel cols rows) initGenState).visited := by
    rw [hfull, mem_cellBox]
    refine ⟨by omega, by omega, by omega, by omega⟩
  have hreach := inv.conn _ hq
  obtain ⟨l, hl⟩ := reach_passage_path inv.sym hedge hc hr hreach
  have hse : (start_end_positions cols rows).1 = ((1, 1) : Pos) ∧
      (start_end_positions cols rows).2 =
        ((2 * ((cols : ℤ) - 1) + 1, 2 * ((rows : ℤ) - 1) + 1) : Pos) := by
    constructor
    · rfl
    · simp [start_end_positions, Prod.ext_iff]
      constructor <;> ring
  have hl' : PassagePath (Maze.to_grid cols rows (mazeCells cols rows rng))
      (start_end_positions cols rows).1 (start_end_positions cols rows).2 l := by
    rw [hse.1, hse.2]
    exact hl
  obtain ⟨dom, dd, inv2, hgoal⟩ :=
    bfs_goal_found (Maze.to_grid cols rows (mazeCells cols rows rng))
      (start_end_positions cols rows).1 (start_end_positions cols rows).2 ⟨l, hl'⟩
  obtain ⟨h1, -, -, -, -⟩ := bfs_found_spec _ _ _ inv2 hgoal
  intro hnil
  rw [hnil] at h1
  cases h1

theorem c4_witness :
    (1 ≤ 1) ∧ (1 ≤ 1) ∧
    bfs_shortest_path (Maze.to_grid 1 1 (mazeCells 1 1 (fun _ => 0)))
      (start_end_positions 1 1).1 (start_end_positions 1 1).2 ≠ [] :=
  ⟨by decide, by decide, c4_solver_nonempty 1 1 (by decide) (by decide) (fun _ => 0)⟩
